import Mathlib

/-!
A shallow embedding of the fastText-style `Dictionary` component of this
repository (two near-identical C++ variants: a words-only dictionary in
`src/dictionary.cc` and a words+labels dictionary), together with theorems
checking the natural-language specification against it.

Conventions of the embedding:
* a word / token is a list of byte values (`List Nat`);
* the open-addressing table `word2int_` is an association list from slot
  index to entry id; an absent slot models the `-1` "empty" marker;
* `real` is modelled by `ℚ`; the deterministic floating `std::sqrt` is
  modelled by the deterministic `Rat.sqrt` (the claims proved here depend
  only on determinism and nonnegativity of the square root, not its value);
* the probe loop of `find` is given explicit fuel `MAX_VOCAB_SIZE`; `none`
  models the C++ non-termination on a saturated table;
* byte streams are a structure holding the full contents, the remaining
  suffix and the eof bit, so that `reset` (the rewind performed by
  `getLine`) is faithful.
-/

namespace FT

/-- Capacity of the open-addressing table (`MAX_VOCAB_SIZE`). -/
def MAX_VOCAB_SIZE : Nat := 30000000

/-- Maximum number of counted tokens per line in the words-only `getLine`. -/
def MAX_LINE_SIZE : Nat := 1024

/-- The end-of-sentence token `"</s>"` as bytes. -/
def EOS : List Nat := [60, 47, 115, 62]

/-- Separator bytes recognized by `readWord`: space, LF, CR, TAB, VT, FF, NUL. -/
def isSep (c : Nat) : Bool :=
  c == 32 || c == 10 || c == 13 || c == 9 || c == 11 || c == 12 || c == 0

/-- Value of `uint32_t(str[i])` for a byte: bytes ≥ 128 are sign-extended
because `char` is signed on the source platform. -/
def charU32 (b : Nat) : Nat := if b < 128 then b else 2 ^ 32 - 256 + b

/-- FNV-1a hash of a word (`Dictionary::hash`), on 32-bit arithmetic. -/
def fnv (w : List Nat) : Nat :=
  w.foldl (fun h c => ((h ^^^ charU32 c) * 16777619) % 2 ^ 32) 2166136261

/-- A byte input stream: full contents (for `seekg 0`), remaining suffix,
and the eof bit. -/
structure IStream where
  full : List Nat
  rem : List Nat
  eofbit : Bool
deriving DecidableEq, Repr

/-- Build a fresh stream over the given contents. -/
def mkStream (bs : List Nat) : IStream := ⟨bs, bs, false⟩

/-- Core loop of `Dictionary::readWord`: scan the remaining bytes with the
accumulated (reversed) token; result is the token (if any), the remaining
bytes, and whether end of stream was hit (the `in.get()` that raises eofbit).
The source reads via `char c; while ((c = sb.sbumpc()) != EOF)`: with the
signed `char` of the source platform (the convention `charU32` follows),
the byte `0xFF` stored in `c` equals `EOF`, so the scan also exits on a
`0xFF` byte; the trailing `in.get()` then consumes the byte after it, or
raises eofbit when the stream is exhausted. -/
def readWordAux : List Nat → List Nat → Option (List Nat) × List Nat × Bool
  | [], acc => (if acc.isEmpty then none else some acc.reverse, [], true)
  | c :: rest, acc =>
    if c == 255 then
      match rest with
      | [] => (if acc.isEmpty then none else some acc.reverse, [], true)
      | _ :: rest' => (if acc.isEmpty then none else some acc.reverse, rest', false)
    else if isSep c then
      if acc.isEmpty then
        if c == 10 then (some EOS, rest, false)
        else readWordAux rest acc
      else
        (some acc.reverse, if c == 10 then c :: rest else rest, false)
    else readWordAux rest (c :: acc)

/-- `Dictionary::readWord`: returns the next token (`none` models returning
`false`) and the updated stream. -/
def readWord (s : IStream) : Option (List Nat) × IStream :=
  let r := readWordAux s.rem []
  (r.1, { s with rem := r.2.1, eofbit := s.eofbit || r.2.2 })

/-- `Dictionary::reset`: on eof, clear the error state and rewind to 0. -/
def reset (s : IStream) : IStream :=
  if s.eofbit then { s with rem := s.full, eofbit := false } else s

/-- A vocabulary entry of the words-only variant. -/
structure entry where
  word : List Nat
  count : Nat
deriving DecidableEq, Repr

/-- The open-addressing table: association list from slot to entry id. -/
abbrev Table : Type := List (Nat × Nat)

/-- Read a slot of the table; `none` models the `-1` empty marker. -/
def tableGet (t : Table) (i : Nat) : Option Nat :=
  (List.find? (fun p => p.1 == i) t).map (fun p => p.2)

/-- Write a slot of the table. -/
def tableSet (t : Table) (i v : Nat) : Table :=
  (i, v) :: List.filter (fun p => ¬ p.1 == i) t

/-- The empty table (every slot `-1`). -/
def tableEmpty : Table := []

/-- Entry dereference `words_[id]`; out-of-range access (undefined in C++)
yields a junk entry. -/
def entryAt (ws : List entry) (id : Nat) : entry := ws.getD id ⟨[], 0⟩

/-- The probe loop of `Dictionary::find(w, h)` with explicit fuel: from slot
`i`, advance while the slot is occupied by an entry whose word differs
from `w`.  `none` models non-termination of the C++ loop. -/
def findAux (tbl : Table) (ws : List entry) (w : List Nat) :
    Nat → Nat → Option Nat
  | 0, _ => none
  | fuel + 1, i =>
    match tableGet tbl i with
    | none => some i
    | some id =>
      if (entryAt ws id).word = w then some i
      else findAux tbl ws w fuel ((i + 1) % MAX_VOCAB_SIZE)

/-- `Dictionary::find(w)`: probe from `hash(w) % MAX_VOCAB_SIZE`. -/
def find (tbl : Table) (ws : List entry) (w : List Nat) : Option Nat :=
  findAux tbl ws w MAX_VOCAB_SIZE (fnv w % MAX_VOCAB_SIZE)

/-- Training modes of the surrounding system; only `sup` matters here. -/
inductive ModelName where
  | cbow
  | sg
  | sup
deriving DecidableEq, Repr

/-- The options record read by the dictionary (`Args`). -/
structure Args where
  minCount : Nat
  minCountLabel : Nat
  t : ℚ
  model : ModelName
  label : List Nat
deriving DecidableEq, Repr

/-- State of the words-only `Dictionary`. -/
structure Dict where
  word2int : Table
  words : List entry
  pdiscard : List ℚ
  nwords : Nat
  ntokens : Nat
  pruneidxSize : Int
  pruneidx : List (Int × Int)
deriving DecidableEq, Repr

/-- The freshly constructed words-only dictionary. -/
def emptyDict : Dict :=
  { word2int := tableEmpty, words := [], pdiscard := [], nwords := 0,
    ntokens := 0, pruneidxSize := -1, pruneidx := [] }

/-- `Dictionary::add` (words-only): increment `ntokens_`; insert a fresh
entry with count 1 at the probed slot, or increment the existing count. -/
def add (d : Dict) (w : List Nat) : Option Dict :=
  match find d.word2int d.words w with
  | none => none
  | some h =>
    match tableGet d.word2int h with
    | none =>
      some { d with
        ntokens := d.ntokens + 1,
        words := d.words ++ [⟨w, 1⟩],
        word2int := tableSet d.word2int h d.nwords,
        nwords := d.nwords + 1 }
    | some id =>
      some { d with
        ntokens := d.ntokens + 1,
        words := d.words.set id ⟨(entryAt d.words id).word,
                                 (entryAt d.words id).count + 1⟩ }

/-- The comparator of `Dictionary::threshold` (words-only): descending count.
`std::sort` is modelled by the deterministic insertion sort; ties are
implementation-defined in the source. -/
def sortCnt (ws : List entry) : List entry :=
  List.insertionSort (fun e1 e2 => e2.count ≤ e1.count) ws

/-- Rebuild pass shared by `threshold`: for each surviving entry in store
order, probe its slot against the full new store and assign the next dense
id.  Returns the table and the final id counter. -/
def rebuildAux (allWs : List entry) :
    List entry → Table → Nat → Option (Table × Nat)
  | [], tbl, n => some (tbl, n)
  | e :: rest, tbl, n =>
    match find tbl allWs e.word with
    | none => none
    | some h => rebuildAux allWs rest (tableSet tbl h n) (n + 1)

/-- `Dictionary::threshold` (words-only): sort by descending count, erase
entries with `count < t`, clear the table and re-probe every survivor. -/
def threshold (d : Dict) (t : Nat) : Option Dict :=
  let ws := (sortCnt d.words).filter (fun e => decide (t ≤ e.count))
  match rebuildAux ws ws tableEmpty 0 with
  | none => none
  | some (tbl, n) =>
    some { d with words := ws, word2int := tbl, nwords := n }

/-- Subsampling probability of one entry: `sqrt(t/f) + t/f` with
`f = count / ntokens`. -/
def pdiscardVal (t : ℚ) (count ntokens : Nat) : ℚ :=
  Rat.sqrt (t / ((count : ℚ) / (ntokens : ℚ))) + t / ((count : ℚ) / (ntokens : ℚ))

/-- `Dictionary::initTableDiscard` (words-only): recompute the whole
subsampling table for ids `0 .. nwords_-1`. -/
def initTableDiscard (t : ℚ) (d : Dict) : Dict :=
  let pd := (List.range d.nwords).map
    (fun i => pdiscardVal t (entryAt d.words i).count d.ntokens)
  { d with pdiscard := pd }

/-- `Dictionary::discard`: `false` in supervised mode, else `rand > pdiscard_[id]`.
The source asserts `0 ≤ id < nwords_`; out-of-range reads are junk. -/
def discard (args : Args) (d : Dict) (id : Nat) (rand : ℚ) : Bool :=
  if args.model = ModelName.sup then false
  else decide (d.pdiscard.getD id 0 < rand)

/-- Ingestion loop of `Dictionary::readFromFile` (words-only), with fuel
(one unit per token read; each token consumes at least one byte).
`minT` is the monotonically increasing incremental threshold cutoff. -/
def readFromFileLoop (args : Args) :
    Nat → IStream → Dict → Nat → Option (Dict × IStream)
  | 0, _, _, _ => none
  | fuel + 1, s, d, minT =>
    match readWord s with
    | (none, s1) => some (d, s1)
    | (some w, s1) =>
      match add d w with
      | none => none
      | some d1 =>
        if 22500000 < d1.nwords then
          match threshold d1 (minT + 1) with
          | none => none
          | some d2 => readFromFileLoop args fuel s1 d2 (minT + 1)
        else readFromFileLoop args fuel s1 d1 minT

/-- `Dictionary::readFromFile` (words-only): ingest every token, apply the
final `minCount` threshold, compute the subsampling table; `none` also
models the fatal exit on an empty vocabulary. -/
def readFromFile (args : Args) (s : IStream) : Option (Dict × IStream) :=
  match readFromFileLoop args (s.rem.length + 1) s emptyDict 1 with
  | none => none
  | some (d, s1) =>
    match threshold d args.minCount with
    | none => none
    | some d1 =>
      let d2 := initTableDiscard args.t d1
      if d2.nwords = 0 then none else some (d2, s1)

/-- Loop of the words-only `Dictionary::getLine`, with fuel (one unit per
token; each token consumes at least one byte).  State: stream, index into
the caller's random source, counted tokens, accumulated word ids.  Returns
`(ntokens, words, stream, next random index)`. -/
def getLineLoop (args : Args) (d : Dict) (rng : Nat → ℚ) :
    Nat → IStream → Nat → Nat → List Nat → Option (Nat × List Nat × IStream × Nat)
  | 0, _, _, _, _ => none
  | fuel + 1, s, k, n, acc =>
    match readWord s with
    | (none, s1) => some (n, acc, s1, k)
    | (some tok, s1) =>
      match find d.word2int d.words tok with
      | none => none
      | some h =>
        match tableGet d.word2int h with
        | none => getLineLoop args d rng fuel s1 k n acc
        | some wid =>
          if MAX_LINE_SIZE < n + 1 ∨ tok = EOS then
            some (n + 1, if discard args d wid (rng k) then acc else acc ++ [wid], s1, k + 1)
          else getLineLoop args d rng fuel s1 (k + 1) (n + 1)
            (if discard args d wid (rng k) then acc else acc ++ [wid])

/-- The words-only `Dictionary::getLine`: reset the stream on eof, then run
the token loop. -/
def getLine (args : Args) (d : Dict) (s : IStream) (rng : Nat → ℚ) :
    Option (Nat × List Nat × IStream × Nat) :=
  let s0 := reset s
  getLineLoop args d rng (s0.rem.length + 1) s0 0 0 []

/-- Compaction loop of `Dictionary::prune` (words-only): for each store
index `i`, if the write cursor `j` points at a kept id equal to `i`, copy
entry `i` to position `j`, re-probe it, and advance `j`.  Fuel counts the
remaining indices. -/
def pruneLoop (keep : List Int) :
    Nat → Nat → Nat → List entry → Table → Option (List entry × Table × Nat)
  | 0, _, j, ws, tbl => some (ws, tbl, j)
  | cnt + 1, i, j, ws, tbl =>
    if j < keep.length ∧ keep.getD j 0 = (i : Int) then
      match find tbl (ws.set j (entryAt ws i)) (entryAt ws i).word with
      | none => none
      | some h =>
        pruneLoop keep cnt (i + 1) (j + 1) (ws.set j (entryAt ws i)) (tableSet tbl h j)
    else pruneLoop keep cnt (i + 1) j ws tbl

/-- Sort of the kept-id list in `prune` (`std::sort`, ascending). -/
def sortIds (xs : List Int) : List Int :=
  List.insertionSort (fun a b : Int => a ≤ b) xs

/-- `Dictionary::prune` (words-only): keep the ids of `idx` that are
`< nwords_` (negative ids pass this filter, as in the source), sort them,
compact the store in place (without truncating it), rebuild the table, and
set `nwords_` to the size of the kept list.  Returns the new state and the
kept list written back into `idx`. -/
def prune (d : Dict) (idx : List Int) : Option (Dict × List Int) :=
  let keep := sortIds (idx.filter (fun x => decide (x < (d.nwords : Int))))
  match pruneLoop keep d.words.length 0 0 d.words tableEmpty with
  | none => none
  | some (ws, tbl, _) =>
    let d1 : Dict :=
      { d with
        words := ws
        word2int := tbl
        pruneidxSize := (d.pruneidx.length : Int)
        nwords := keep.length }
    some (d1, keep)

/-- Entry types of the label-aware variant (`entry_type`): `word = 0`,
`label = 1`. -/
inductive EType where
  | word
  | label
deriving DecidableEq, Repr

/-- Ordinal of an entry type (its value as the underlying C++ enum). -/
def EType.ord : EType → Nat
  | EType.word => 0
  | EType.label => 1

/-- A vocabulary entry of the label-aware variant. -/
structure lentry where
  word : List Nat
  count : Nat
  type : EType
deriving DecidableEq, Repr

/-- State of the label-aware `Dictionary`. -/
structure LDict where
  word2int : Table
  words : List lentry
  pdiscard : List ℚ
  nwords : Nat
  nlabels : Nat
  size : Nat
  ntokens : Nat
  pruneidxSize : Int
  pruneidx : List (Int × Int)
deriving DecidableEq, Repr

/-- The freshly constructed label-aware dictionary. -/
def emptyLDict : LDict :=
  { word2int := tableEmpty, words := [], pdiscard := [], nwords := 0,
    nlabels := 0, size := 0, ntokens := 0, pruneidxSize := -1, pruneidx := [] }

/-- Entry dereference `words_[id]` in the label-aware variant. -/
def lentryAt (ws : List lentry) (id : Nat) : lentry := ws.getD id ⟨[], 0, EType.word⟩

/-- `Dictionary::getType(const std::string&)`: a token is a label iff the
configured label marker occurs at position 0 (`w.find(label) == 0`). -/
def typeOfToken (args : Args) (w : List Nat) : EType :=
  if w.take args.label.length = args.label then EType.label else EType.word

/-- The probe loop of the label-aware `find`, as `findAux`. -/
def lfindAux (tbl : Table) (ws : List lentry) (w : List Nat) :
    Nat → Nat → Option Nat
  | 0, _ => none
  | fuel + 1, i =>
    match tableGet tbl i with
    | none => some i
    | some id =>
      if (lentryAt ws id).word = w then some i
      else lfindAux tbl ws w fuel ((i + 1) % MAX_VOCAB_SIZE)

/-- The label-aware `Dictionary::find(w)`. -/
def lfind (tbl : Table) (ws : List lentry) (w : List Nat) : Option Nat :=
  lfindAux tbl ws w MAX_VOCAB_SIZE (fnv w % MAX_VOCAB_SIZE)

/-- The label-aware `Dictionary::add`: like the words-only one but the new
entry's type is derived from the label marker, and `size_` is the id counter. -/
def ladd (args : Args) (d : LDict) (w : List Nat) : Option LDict :=
  match lfind d.word2int d.words w with
  | none => none
  | some h =>
    match tableGet d.word2int h with
    | none =>
      some { d with
        ntokens := d.ntokens + 1,
        words := d.words ++ [⟨w, 1, typeOfToken args w⟩],
        word2int := tableSet d.word2int h d.size,
        size := d.size + 1 }
    | some id =>
      some { d with
        ntokens := d.ntokens + 1,
        words := d.words.set id ⟨(lentryAt d.words id).word,
                                 (lentryAt d.words id).count + 1,
                                 (lentryAt d.words id).type⟩ }

/-- Comparator of the label-aware `threshold`: type first (words before
labels), then descending count. -/
def lsortRel (e1 e2 : lentry) : Prop :=
  if e1.type = e2.type then e2.count ≤ e1.count else e1.type = EType.word

instance : DecidableRel lsortRel := by
  intro e1 e2; unfold lsortRel; infer_instance

/-- Sorting pass of the label-aware `threshold`. -/
def lsortEntries (ws : List lentry) : List lentry :=
  List.insertionSort lsortRel ws

/-- Survival predicate of the label-aware `threshold`: erase word entries
with `count < t` and label entries with `count < tl`. -/
def lkeepEntry (t tl : Nat) (e : lentry) : Bool :=
  if e.type = EType.word then decide (t ≤ e.count) else decide (tl ≤ e.count)

/-- Rebuild pass of the label-aware `threshold`: assign dense ids in store
order and tally `nwords_` / `nlabels_`.  Returns table, `size_`, `nwords_`,
`nlabels_`. -/
def lrebuildAux (allWs : List lentry) :
    List lentry → Table → Nat → Nat → Nat → Option (Table × Nat × Nat × Nat)
  | [], tbl, n, nw, nl => some (tbl, n, nw, nl)
  | e :: rest, tbl, n, nw, nl =>
    match lfind tbl allWs e.word with
    | none => none
    | some h =>
      lrebuildAux allWs rest (tableSet tbl h n) (n + 1)
        (if e.type = EType.word then nw + 1 else nw)
        (if e.type = EType.label then nl + 1 else nl)

/-- The label-aware `Dictionary::threshold(t, tl)`. -/
def lthreshold (d : LDict) (t tl : Nat) : Option LDict :=
  let ws := (lsortEntries d.words).filter (lkeepEntry t tl)
  match lrebuildAux ws ws tableEmpty 0 0 0 with
  | none => none
  | some (tbl, n, nw, nl) =>
    some { d with
      words := ws
      word2int := tbl
      size := n
      nwords := nw
      nlabels := nl }

/-- The label-aware `initTableDiscard`: one probability per id in
`0 .. size_-1` (labels included). -/
def linitTableDiscard (t : ℚ) (d : LDict) : LDict :=
  let pd := (List.range d.size).map
    (fun i => pdiscardVal t (lentryAt d.words i).count d.ntokens)
  { d with pdiscard := pd }

/-- The label-aware `Dictionary::discard` (same body as the words-only one). -/
def ldiscard (args : Args) (d : LDict) (id : Nat) (rand : ℚ) : Bool :=
  if args.model = ModelName.sup then false
  else decide (d.pdiscard.getD id 0 < rand)

/-- Loop of the label-aware `getLine(in, words, labels, rng)`: every token
is counted, tokens are classified by table lookup with the label-marker
fallback for out-of-vocabulary tokens, word-type tokens push their id
(`-1` when out of vocabulary), in-vocabulary labels push `id - nwords_`,
and the loop stops at `</s>`.  The random source is never consulted.
Word ids are `Int` because `-1` can be pushed.  The source's `wid`/`type`
locals are inlined per table-lookup case; in the empty-slot case the
label branch's `wid >= 0` test is always false and is elided. -/
def lgetLineLoop (args : Args) (d : LDict) :
    Nat → IStream → Nat → List Int → List Int →
    Option (Nat × List Int × List Int × IStream)
  | 0, _, _, _, _ => none
  | fuel + 1, s, n, accW, accL =>
    match readWord s with
    | (none, s1) => some (n, accW, accL, s1)
    | (some tok, s1) =>
      match lfind d.word2int d.words tok with
      | none => none
      | some h =>
        match tableGet d.word2int h with
        | none =>
          if tok = EOS then
            some (n + 1,
              (if typeOfToken args tok = EType.word then accW ++ [(-1 : Int)] else accW),
              accL, s1)
          else
            lgetLineLoop args d fuel s1 (n + 1)
              (if typeOfToken args tok = EType.word then accW ++ [(-1 : Int)] else accW)
              accL
        | some id =>
          if tok = EOS then
            some (n + 1,
              (if (lentryAt d.words id).type = EType.word
                then accW ++ [(id : Int)] else accW),
              (if (lentryAt d.words id).type = EType.label
                then accL ++ [(id : Int) - (d.nwords : Int)] else accL),
              s1)
          else
            lgetLineLoop args d fuel s1 (n + 1)
              (if (lentryAt d.words id).type = EType.word
                then accW ++ [(id : Int)] else accW)
              (if (lentryAt d.words id).type = EType.label
                then accL ++ [(id : Int) - (d.nwords : Int)] else accL)

/-- The label-aware `Dictionary::getLine(in, words, labels, rng)`; the
random source parameter is never drawn from in this overload. -/
def lgetLine (args : Args) (d : LDict) (s : IStream) (rng : Nat → ℚ) :
    Option (Nat × List Int × List Int × IStream) :=
  let s0 := reset s
  lgetLineLoop args d (s0.rem.length + 1) s0 0 [] []

/-- Compaction loop of the label-aware `prune`: label entries are always
kept; word entries are kept when the write cursor points at their id. -/
def lpruneLoop (keep : List Int) :
    Nat → Nat → Nat → List lentry → Table → Option (List lentry × Table × Nat)
  | 0, _, j, ws, tbl => some (ws, tbl, j)
  | cnt + 1, i, j, ws, tbl =>
    if (lentryAt ws i).type = EType.label ∨
        (j < keep.length ∧ keep.getD j 0 = (i : Int)) then
      match lfind tbl (ws.set j (lentryAt ws i)) (lentryAt ws i).word with
      | none => none
      | some h =>
        lpruneLoop keep cnt (i + 1) (j + 1) (ws.set j (lentryAt ws i)) (tableSet tbl h j)
    else lpruneLoop keep cnt (i + 1) j ws tbl

/-- The label-aware `Dictionary::prune`. -/
def lprune (d : LDict) (idx : List Int) : Option (LDict × List Int) :=
  let keep := sortIds (idx.filter (fun x => decide (x < (d.nwords : Int))))
  match lpruneLoop keep d.words.length 0 0 d.words tableEmpty with
  | none => none
  | some (ws, tbl, _) =>
    let d1 : LDict :=
      { d with
        words := ws
        word2int := tbl
        pruneidxSize := (d.pruneidx.length : Int)
        nwords := keep.length
        size := keep.length + d.nlabels }
    some (d1, keep)

/-- Little-endian encoding of `w` bytes of the natural number `n mod 256^w`. -/
def encLE : Nat → Nat → List Nat
  | 0, _ => []
  | w + 1, n => n % 256 :: encLE w (n / 256)

/-- Little-endian decoding of a byte list. -/
def decLE (bs : List Nat) : Nat := bs.foldr (fun b acc => b + 256 * acc) 0

/-- Two's-complement little-endian encoding of an integer on `w` bytes. -/
def encInt (w : Nat) (i : Int) : List Nat := encLE w (i.emod (2 ^ (8 * w))).toNat

/-- Two's-complement little-endian decoding of `w` bytes. -/
def decInt (w : Nat) (bs : List Nat) : Int :=
  let n := decLE bs
  if n < 2 ^ (8 * w - 1) then (n : Int) else (n : Int) - 2 ^ (8 * w)

/-- Consume exactly `w` bytes of the input, or fail (`in.read` on a
truncated stream is undefined in the source; the model fails). -/
def readBytes (w : Nat) (bs : List Nat) : Option (List Nat × List Nat) :=
  if w ≤ bs.length then some (bs.take w, bs.drop w) else none

/-- Consume a NUL-terminated word (`while ((c = in.get()) != 0)`). -/
def readCString : List Nat → Option (List Nat × List Nat)
  | [] => none
  | c :: rest =>
    if c = 0 then some ([], rest)
    else (readCString rest).map (fun p => (c :: p.1, p.2))

/-- `Dictionary::save` (words-only), as the exact byte stream it writes:
`int32 nwords_`, `int64 ntokens_`, `int64 pruneidx_size_`, then each of the
first `nwords_` entries as NUL-terminated word plus `int64` count, then the
prune-map pairs as two `int32`. -/
def save (d : Dict) : List Nat :=
  encInt 4 (d.nwords : Int) ++ encInt 8 (d.ntokens : Int) ++ encInt 8 d.pruneidxSize
    ++ ((d.words.take d.nwords).map
        (fun e => e.word ++ [0] ++ encInt 8 (e.count : Int))).flatten
    ++ (d.pruneidx.map (fun p => encInt 4 p.1 ++ encInt 4 p.2)).flatten

/-- Entry-reading loop of `Dictionary::load` (words-only): read a word and
its count, push the entry, and point the probed slot at its id. -/
def loadEntriesLoop :
    Nat → List Nat → List entry → Table → Nat →
    Option (List entry × Table × List Nat)
  | 0, bs, ws, tbl, _ => some (ws, tbl, bs)
  | k + 1, bs, ws, tbl, i =>
    match readCString bs with
    | none => none
    | some (wbs, bs1) =>
      match readBytes 8 bs1 with
      | none => none
      | some (cb, bs2) =>
        match find tbl (ws ++ [⟨wbs, (decInt 8 cb).toNat⟩]) wbs with
        | none => none
        | some h =>
          loadEntriesLoop k bs2 (ws ++ [⟨wbs, (decInt 8 cb).toNat⟩])
            (tableSet tbl h i) (i + 1)

/-- Prune-map-reading loop of `Dictionary::load`. -/
def loadPairsLoop :
    Nat → List Nat → List (Int × Int) → Option (List (Int × Int) × List Nat)
  | 0, bs, acc => some (acc, bs)
  | k + 1, bs, acc =>
    match readBytes 4 bs with
    | none => none
    | some (fb, bs1) =>
      match readBytes 4 bs1 with
      | none => none
      | some (sb, bs2) => loadPairsLoop k bs2 (acc ++ [(decInt 4 fb, decInt 4 sb)])

/-- `Dictionary::load` (words-only): parse the header, the entries and the
prune map, rebuilding the table on the way, then recompute the subsampling
table.  Counts model the nonnegative `int64` values of real dictionaries. -/
def load (args : Args) (bs : List Nat) : Option Dict :=
  match readBytes 4 bs with
  | none => none
  | some (nb, bs1) =>
    match readBytes 8 bs1 with
    | none => none
    | some (tb, bs2) =>
      match readBytes 8 bs2 with
      | none => none
      | some (pb, bs3) =>
        match loadEntriesLoop (decInt 4 nb).toNat bs3 [] tableEmpty 0 with
        | none => none
        | some (ws, tbl, bs4) =>
          match loadPairsLoop (decInt 8 pb).toNat bs4 [] with
          | none => none
          | some (pidx, _) =>
            some (initTableDiscard args.t
              { word2int := tbl
                words := ws
                pdiscard := []
                nwords := (decInt 4 nb).toNat
                ntokens := (decInt 8 tb).toNat
                pruneidxSize := decInt 8 pb
                pruneidx := pidx })

/-- Modelled from the spec: the label-aware variant's header (which defines
`entry_type` and is not under `src/`) gives the type tag a 1-byte
representation; the spec says the format "appends a 1-byte type tag (enum
ordinal) after each entry's count". -/
def encType (ty : EType) : List Nat := [ty.ord]

/-- Modelled from the spec: decoding of the 1-byte type tag; a nonzero
ordinal is `label`. -/
def decType (b : Nat) : EType := if b = 0 then EType.word else EType.label

/-- The label-aware `Dictionary::save`: additionally writes `size_` and
`nlabels_` and each entry's type tag. -/
def lsave (d : LDict) : List Nat :=
  encInt 4 (d.size : Int) ++ encInt 4 (d.nwords : Int) ++ encInt 4 (d.nlabels : Int)
    ++ encInt 8 (d.ntokens : Int) ++ encInt 8 d.pruneidxSize
    ++ ((d.words.take d.size).map
        (fun e => e.word ++ [0] ++ encInt 8 (e.count : Int) ++ encType e.type)).flatten
    ++ (d.pruneidx.map (fun p => encInt 4 p.1 ++ encInt 4 p.2)).flatten

/-- Entry-reading loop of the label-aware `load`. -/
def lloadEntriesLoop :
    Nat → List Nat → List lentry → Table → Nat →
    Option (List lentry × Table × List Nat)
  | 0, bs, ws, tbl, _ => some (ws, tbl, bs)
  | k + 1, bs, ws, tbl, i =>
    match readCString bs with
    | none => none
    | some (wbs, bs1) =>
      match readBytes 8 bs1 with
      | none => none
      | some (cb, bs2) =>
        match readBytes 1 bs2 with
        | none => none
        | some (yb, bs3) =>
          match lfind tbl (ws ++ [⟨wbs, (decInt 8 cb).toNat, decType (yb.getD 0 0)⟩]) wbs with
          | none => none
          | some h =>
            lloadEntriesLoop k bs3 (ws ++ [⟨wbs, (decInt 8 cb).toNat, decType (yb.getD 0 0)⟩])
              (tableSet tbl h i) (i + 1)

/-- The label-aware `Dictionary::load`. -/
def lload (args : Args) (bs : List Nat) : Option LDict :=
  match readBytes 4 bs with
  | none => none
  | some (sb, bs1) =>
    match readBytes 4 bs1 with
    | none => none
    | some (nb, bs2) =>
      match readBytes 4 bs2 with
      | none => none
      | some (lb, bs3) =>
        match readBytes 8 bs3 with
        | none => none
        | some (tb, bs4) =>
          match readBytes 8 bs4 with
          | none => none
          | some (pb, bs5) =>
            match lloadEntriesLoop (decInt 4 sb).toNat bs5 [] tableEmpty 0 with
            | none => none
            | some (ws, tbl, bs6) =>
              match loadPairsLoop (decInt 8 pb).toNat bs6 [] with
              | none => none
              | some (pidx, _) =>
                some (linitTableDiscard args.t
                  { word2int := tbl
                    words := ws
                    pdiscard := []
                    nwords := (decInt 4 nb).toNat
                    nlabels := (decInt 4 lb).toNat
                    size := (decInt 4 sb).toNat
                    ntokens := (decInt 8 tb).toNat
                    pruneidxSize := decInt 8 pb
                    pruneidx := pidx })

/-! ### Lemmas about `readWord` -/

theorem readWordAux_isSome_of_ne_nil (rem : List Nat) :
    ∀ acc : List Nat, acc ≠ [] → ((readWordAux rem acc).1).isSome := by
  induction rem with
  | nil =>
    intro acc hacc
    simp [readWordAux, List.isEmpty_iff, hacc]
  | cons c rest ih =>
    intro acc hacc
    by_cases h255 : (c == 255) = true
    · cases rest with
      | nil => simp [readWordAux, h255, List.isEmpty_iff, hacc]
      | cons b rest' => simp [readWordAux, h255, List.isEmpty_iff, hacc]
    · by_cases hs : isSep c
      · by_cases h10 : (c == 10) = true
        · simp [readWordAux, h255, hs, List.isEmpty_iff, hacc, h10]
        · simp [readWordAux, h255, hs, List.isEmpty_iff, hacc, h10]
      · simpa [readWordAux, h255, hs] using ih (c :: acc) (by simp)

theorem readWordAux_skip (pre : List Nat)
    (h : ∀ c ∈ pre, isSep c = true ∧ c ≠ 10) (rest : List Nat) :
    readWordAux (pre ++ rest) [] = readWordAux rest [] := by
  induction pre with
  | nil => rfl
  | cons c pre ih =>
    have hc := h c (by simp)
    have hrest : ∀ c ∈ pre, isSep c = true ∧ c ≠ 10 := fun c hc => h c (by simp [hc])
    have h10 : (c == 10) = false := by
      simpa using hc.2
    have h255 : (c == 255) = false := by
      have h1 := hc.1
      simp only [isSep, Bool.or_eq_true, beq_iff_eq] at h1
      have h2 : c ≠ 255 := by
        rcases h1 with h | h | h | h | h | h | h <;> omega
      simpa using h2
    simp [readWordAux, h255, hc.1, h10, ih hrest]

theorem readWordAux_accum (w : List Nat) (h : ∀ c ∈ w, isSep c = false)
    (h255 : ∀ c ∈ w, c ≠ 255) :
    ∀ rest acc, readWordAux (w ++ rest) acc = readWordAux rest (w.reverse ++ acc) := by
  induction w with
  | nil => intro rest acc; rfl
  | cons c w ih =>
    intro rest acc
    have hc := h c (by simp)
    have hc255 : (c == 255) = false := by simpa using h255 c (by simp)
    have hw : ∀ c ∈ w, isSep c = false := fun c hc => h c (by simp [hc])
    have hw255 : ∀ c ∈ w, c ≠ 255 := fun c hc => h255 c (by simp [hc])
    simp [readWordAux, hc, hc255, ih hw hw255, List.append_assoc]

theorem readWordAux_none_iff (rem : List Nat) (hno : ∀ c ∈ rem, c ≠ 255) :
    (readWordAux rem []).1 = none ↔ ∀ c ∈ rem, isSep c = true ∧ c ≠ 10 := by
  induction rem with
  | nil => simp [readWordAux]
  | cons c rest ih =>
    have hc255 : (c == 255) = false := by simpa using hno c (by simp)
    have hrest : ∀ c ∈ rest, c ≠ 255 := fun c hc => hno c (by simp [hc])
    by_cases hs : isSep c
    · by_cases h10 : c = 10
      · subst h10; simp [readWordAux, hs, hc255]
      · have h10' : (c == 10) = false := by simpa using h10
        simp [readWordAux, hs, hc255, h10', ih hrest, h10]
    · have : ((readWordAux rest [c]).1).isSome :=
        readWordAux_isSome_of_ne_nil rest [c] (by simp)
      simp only [readWordAux, hc255, hs, if_false, Bool.false_eq_true]
      rw [Option.isSome_iff_ne_none] at this
      simp [this, hs]

/-- C7.  Counterexample to the original `readWord` contract: the source
reads each byte through a signed `char` and compares it to `EOF`, so the
byte `0xFF` ends the scan exactly like end of stream and the trailing
`in.get()` swallows the following byte.  On the stream `[0xFF, 'a', 'b']`
the call consumes two bytes and reports failure with the stream not
exhausted, and on the separator-free bytes `"a\xFFb"` the returned token is
`"a"`, not the whole word — both contradicting the claimed contract. -/
theorem c7_readWord_eof_collision :
    readWord (mkStream [255, 97, 98]) = (none, ⟨[255, 97, 98], [98], false⟩) ∧
    (∀ c ∈ [(97 : Nat), 255, 98], isSep c = false) ∧
    (readWord (mkStream [97, 255, 98])).1 = some [97] := by
  decide

/-- C7 (amended).  On streams free of the byte `0xFF` (which the source's
signed-`char` read loop confuses with `EOF`): `readWord` skips a leading run
of separators, except that a bare newline with an empty pending token yields
the `"</s>"` token; a trailing newline after a non-empty token is pushed
back so the next call emits `"</s>"`; a non-empty token terminated by end of
stream, or by any other separator (even as the last byte), is still reported
successfully; the call reports failure exactly when the remaining bytes
contain nothing but non-newline separators.  At a `0xFF` byte the scan stops
as if at end of stream, the byte after it (if any) is swallowed by the
trailing `in.get()`, and with no pending token the call reports failure even
though the stream need not be exhausted. -/
theorem c7_readWord_contract :
    (∀ full e pre rest, (∀ c ∈ pre, isSep c = true ∧ c ≠ 10) →
        readWord ⟨full, pre ++ rest, e⟩ = readWord ⟨full, rest, e⟩) ∧
    (∀ full e rest, readWord ⟨full, 10 :: rest, e⟩ = (some EOS, ⟨full, rest, e⟩)) ∧
    (∀ full e w rest, w ≠ [] → (∀ c ∈ w, isSep c = false) → (∀ c ∈ w, c ≠ 255) →
        readWord ⟨full, w ++ 10 :: rest, e⟩ = (some w, ⟨full, 10 :: rest, e⟩) ∧
        (readWord ⟨full, 10 :: rest, e⟩).1 = some EOS) ∧
    (∀ full e w, w ≠ [] → (∀ c ∈ w, isSep c = false) → (∀ c ∈ w, c ≠ 255) →
        readWord ⟨full, w, e⟩ = (some w, ⟨full, [], true⟩)) ∧
    (∀ full e w c, w ≠ [] → (∀ c ∈ w, isSep c = false) → (∀ c ∈ w, c ≠ 255) →
        isSep c = true → c ≠ 10 →
        readWord ⟨full, w ++ [c], e⟩ = (some w, ⟨full, [], e⟩)) ∧
    (∀ s : IStream, (∀ c ∈ s.rem, c ≠ 255) →
        ((readWord s).1 = none ↔ ∀ c ∈ s.rem, isSep c = true ∧ c ≠ 10)) ∧
    (∀ full e b rest, readWord ⟨full, 255 :: b :: rest, e⟩ = (none, ⟨full, rest, e⟩)) ∧
    (∀ full e, readWord ⟨full, [255], e⟩ = (none, ⟨full, [], true⟩)) := by
  refine ⟨?_, ?_, ?_, ?_, ?_, ?_, ?_, ?_⟩
  · intro full e pre rest h
    simp [readWord, readWordAux_skip pre h rest]
  · intro full e rest
    simp [readWord, readWordAux, isSep]
  · intro full e w rest hw hsep h255
    have h1 := readWordAux_accum w hsep h255 (10 :: rest) []
    constructor
    · simp [readWord, h1, readWordAux, List.isEmpty_iff, hw, isSep]
    · simp [readWord, readWordAux, isSep]
  · intro full e w hw hsep h255
    have h1 := readWordAux_accum w hsep h255 [] []
    simp at h1
    simp [readWord, h1, readWordAux, List.isEmpty_iff, hw]
  · intro full e w c hw hsep h255 hc h10
    have h1 := readWordAux_accum w hsep h255 [c] []
    have h10' : (c == 10) = false := by simpa using h10
    have hc255 : (c == 255) = false := by
      have h1' := hc
      simp only [isSep, Bool.or_eq_true, beq_iff_eq] at h1'
      have h2 : c ≠ 255 := by
        rcases h1' with h | h | h | h | h | h | h <;> omega
      simpa using h2
    simp [readWord, h1, readWordAux, List.isEmpty_iff, hw, hc, h10', hc255]
  · intro s hno
    simp [readWord, readWordAux_none_iff s.rem hno]
  · intro full e b rest
    simp [readWord, readWordAux]
  · intro full e
    simp [readWord, readWordAux]

/-- Concrete instance of the `readWord` contract: on the bytes `"ab\n"`,
the first call returns the token `"ab"` and pushes the newline back, and
the second call returns `"</s>"`. -/
theorem c7_readWord_contract_witness :
    readWord ⟨[97, 98, 10], [97, 98, 10], false⟩ =
      (some [97, 98], ⟨[97, 98, 10], [10], false⟩) ∧
    (readWord ⟨[97, 98, 10], [10], false⟩).1 = some EOS := by
  exact (c7_readWord_contract.2.2.1 [97, 98, 10] false [97, 98] []
    (by decide) (by decide) (by decide))

/-! ### Termination of the linear probe -/

/-- A slot at which the probe loop stops: empty, or holding an entry whose
word is the query. -/
def probeStop (tbl : Table) (ws : List entry) (w : List Nat) (i : Nat) : Prop :=
  tableGet tbl i = none ∨
    ∃ id, tableGet tbl i = some id ∧ (entryAt ws id).word = w

theorem findAux_stop_of_some (tbl : Table) (ws : List entry) (w : List Nat) :
    ∀ fuel i j, findAux tbl ws w fuel i = some j → probeStop tbl ws w j := by
  intro fuel
  induction fuel with
  | zero => intro i j h; simp [findAux] at h
  | succ fuel ih =>
    intro i j h
    rw [findAux] at h
    split at h
    next hg => cases h; exact Or.inl hg
    next id hg =>
      split at h
      next hw => cases h; exact Or.inr ⟨id, hg, hw⟩
      next hw => exact ih _ _ h

theorem findAux_some_of_stop (tbl : Table) (ws : List entry) (w : List Nat) :
    ∀ fuel i, i < MAX_VOCAB_SIZE →
      (∃ k < fuel, probeStop tbl ws w ((i + k) % MAX_VOCAB_SIZE)) →
      ∃ j, findAux tbl ws w fuel i = some j := by
  intro fuel
  induction fuel with
  | zero => intro i _ h; obtain ⟨k, hk, _⟩ := h; omega
  | succ fuel ih =>
    intro i hi h
    rw [findAux]
    rcases hg : tableGet tbl i with _ | id
    · exact ⟨i, rfl⟩
    · by_cases hw : (entryAt ws id).word = w
      · exact ⟨i, by simp [hw]⟩
      · simp only [hw, if_false]
        obtain ⟨k, hk, hstop⟩ := h
        have hk0 : k ≠ 0 := by
          intro h0
          subst h0
          rw [Nat.add_zero, Nat.mod_eq_of_lt hi] at hstop
          rcases hstop with h1 | ⟨id2, h2, h3⟩
          · rw [hg] at h1; cases h1
          · rw [hg] at h2
            cases h2
            exact hw h3
        refine ih ((i + 1) % MAX_VOCAB_SIZE) (Nat.mod_lt _ (by decide)) ⟨k - 1, by omega, ?_⟩
        have : ((i + 1) % MAX_VOCAB_SIZE + (k - 1)) % MAX_VOCAB_SIZE
            = (i + k) % MAX_VOCAB_SIZE := by
          rw [Nat.mod_add_mod]
          congr 1
          omega
        rw [this]
        exact hstop

theorem exists_probe_offset (i e : Nat) (hi : i < MAX_VOCAB_SIZE)
    (he : e < MAX_VOCAB_SIZE) :
    ∃ k < MAX_VOCAB_SIZE, (i + k) % MAX_VOCAB_SIZE = e := by
  refine ⟨(e + MAX_VOCAB_SIZE - i) % MAX_VOCAB_SIZE,
    Nat.mod_lt _ (by decide), ?_⟩
  rw [Nat.add_mod_mod]
  have : i + (e + MAX_VOCAB_SIZE - i) = e + MAX_VOCAB_SIZE := by omega
  rw [this, Nat.add_mod_right, Nat.mod_eq_of_lt he]

theorem exists_empty_slot (tbl : Table) (h : tbl.length < MAX_VOCAB_SIZE) :
    ∃ i < MAX_VOCAB_SIZE, tableGet tbl i = none := by
  by_contra hall
  push_neg at hall
  have hsub : Finset.range MAX_VOCAB_SIZE ⊆ (tbl.map Prod.fst).toFinset := by
    intro i hi
    rw [Finset.mem_range] at hi
    have hne := hall i hi
    rcases hg : tableGet tbl i with _ | id
    · exact absurd hg hne
    · rw [tableGet] at hg
      rcases hf : List.find? (fun p => p.1 == i) tbl with _ | p
      · rw [hf] at hg; cases hg
      · have hp := List.find?_some hf
        have hmem := List.mem_of_find?_eq_some hf
        rw [List.mem_toFinset]
        have : p.1 = i := by simpa using hp
        rw [← this]
        exact List.mem_map_of_mem Prod.fst hmem
  have h1 := Finset.card_le_card hsub
  rw [Finset.card_range] at h1
  have h2 := (tbl.map Prod.fst).toFinset_card_le
  rw [List.length_map] at h2
  omega

/-- C9.  For every table state with at least one empty slot, the linear
probe of `find` terminates, at a slot that is either empty or holds an
entry whose word equals the query. -/
theorem c9_find_terminates (tbl : Table) (ws : List entry) (w : List Nat)
    (h : ∃ i < MAX_VOCAB_SIZE, tableGet tbl i = none) :
    ∃ j, find tbl ws w = some j ∧
      (tableGet tbl j = none ∨
        ∃ id, tableGet tbl j = some id ∧ (entryAt ws id).word = w) := by
  obtain ⟨e, he, hge⟩ := h
  have hstart : fnv w % MAX_VOCAB_SIZE < MAX_VOCAB_SIZE := Nat.mod_lt _ (by decide)
  obtain ⟨k, hk, hke⟩ := exists_probe_offset (fnv w % MAX_VOCAB_SIZE) e hstart he
  obtain ⟨j, hj⟩ := findAux_some_of_stop tbl ws w MAX_VOCAB_SIZE
    (fnv w % MAX_VOCAB_SIZE) hstart ⟨k, hk, by rw [hke]; exact Or.inl hge⟩
  exact ⟨j, hj, findAux_stop_of_some tbl ws w MAX_VOCAB_SIZE _ j hj⟩

/-- Concrete instance of probe termination: on the empty table every
lookup stops (at an empty slot). -/
theorem c9_find_terminates_witness :
    (0 < MAX_VOCAB_SIZE ∧ tableGet tableEmpty 0 = none) ∧
    ∃ j, find tableEmpty [] [97] = some j ∧
      (tableGet tableEmpty j = none ∨
        ∃ id, tableGet tableEmpty j = some id ∧ (entryAt [] id).word = [97]) :=
  ⟨⟨by decide, rfl⟩, c9_find_terminates tableEmpty [] [97] ⟨0, by decide, rfl⟩⟩

/-! ### Subsampling -/

theorem getD_nonneg (l : List ℚ) (i : Nat) (h : ∀ x ∈ l, 0 ≤ x) :
    0 ≤ l.getD i 0 := by
  induction l generalizing i with
  | nil => simp [List.getD]
  | cons a l ih =>
    cases i with
    | zero => exact h a (by simp)
    | succ i =>
      simp only [List.getD_cons_succ]
      exact ih i (fun x hx => h x (by simp [hx]))

theorem pdiscardVal_nonneg (t : ℚ) (c n : Nat) (ht : 0 ≤ t) :
    0 ≤ pdiscardVal t c n := by
  have hf : (0 : ℚ) ≤ (c : ℚ) / (n : ℚ) := by positivity
  have hd : (0 : ℚ) ≤ t / ((c : ℚ) / (n : ℚ)) := div_nonneg ht hf
  exact add_nonneg (Rat.sqrt_nonneg _) hd

/-- Sample dictionary used by concrete witnesses (the result of ingesting
the C1 scenario, table omitted). -/
def dSample : Dict :=
  { word2int := tableEmpty
    words := [⟨[97], 4⟩, ⟨[98], 3⟩]
    pdiscard := [0, 1]
    nwords := 2
    ntokens := 9
    pruneidxSize := -1
    pruneidx := [] }

/-- Sample options record used by concrete witnesses. -/
def argsSample : Args :=
  { minCount := 2, minCountLabel := 0, t := 0,
    model := ModelName.sg, label := [95, 95] }

/-- C8.  `discard` is a pure function of the training mode, the queried
`pdiscard_` entry and the random draw: it agrees across states with the
same entry, returns `false` unconditionally in supervised mode, otherwise
returns `rand > pdiscard_[id]`, and on a table computed by
`initTableDiscard` with a nonnegative subsampling target it never discards
at `rand = 0`. -/
theorem c8_discard_pure :
    (∀ args d d' id r, d.pdiscard.getD id 0 = d'.pdiscard.getD id 0 →
        discard args d id r = discard args d' id r) ∧
    (∀ args d id r, args.model = ModelName.sup → discard args d id r = false) ∧
    (∀ args d id r, args.model ≠ ModelName.sup →
        (discard args d id r = true ↔ d.pdiscard.getD id 0 < r)) ∧
    (∀ args d id, 0 ≤ args.t →
        discard args (initTableDiscard args.t d) id 0 = false) := by
  refine ⟨?_, ?_, ?_, ?_⟩
  · intro args d d' id r h
    simp only [List.getD_eq_getElem?_getD] at h
    simp [discard, h]
  · intro args d id r h
    simp [discard, h]
  · intro args d id r h
    simp [discard, h]
  · intro args d id ht
    have hnn : 0 ≤ (initTableDiscard args.t d).pdiscard.getD id 0 := by
      refine getD_nonneg _ _ ?_
      intro x hx
      simp only [initTableDiscard, List.mem_map] at hx
      obtain ⟨i, _, hi⟩ := hx
      rw [← hi]
      exact pdiscardVal_nonneg args.t _ _ ht
    simp only [List.getD_eq_getElem?_getD] at hnn
    rcases hm : args.model with _ | _ | _ <;>
      simp [discard, hm, not_lt.mpr hnn]

/-- Concrete instance of the `discard` contract: on the sample dictionary,
the word of id 0 is never discarded at a zero random draw, and two states
sharing the entry agree. -/
theorem c8_discard_pure_witness :
    discard argsSample (initTableDiscard argsSample.t dSample) 0 0 = false ∧
    ((0 : ℚ) ≤ argsSample.t) ∧
    (dSample.pdiscard.getD 0 0 = dSample.pdiscard.getD 0 0 →
      discard argsSample dSample 0 (1 / 2) = discard argsSample dSample 0 (1 / 2)) :=
  ⟨c8_discard_pure.2.2.2 argsSample dSample 0 (le_refl 0), le_refl 0,
    fun h => c8_discard_pure.1 argsSample dSample dSample 0 (1 / 2) h⟩

/-! ### Frame property of `prune` on the subsampling table -/

/-- C10.  Neither variant's `prune` touches `pdiscard_`: the table is
neither recomputed nor permuted even though ids are reassigned, so a
subsequent `discard(newId, r)` compares `r` with the probability that was
computed (before the prune) for the entry that then held `newId`. -/
theorem c10_prune_pdiscard_unchanged :
    (∀ d idx d1 keep, prune d idx = some (d1, keep) →
        d1.pdiscard = d.pdiscard ∧
        (∀ args id r, args.model ≠ ModelName.sup →
          (discard args d1 id r = true ↔ d.pdiscard.getD id 0 < r))) ∧
    (∀ d idx d1 keep, lprune d idx = some (d1, keep) →
        d1.pdiscard = d.pdiscard ∧
        (∀ args id r, args.model ≠ ModelName.sup →
          (ldiscard args d1 id r = true ↔ d.pdiscard.getD id 0 < r))) := by
  constructor
  · intro d idx d1 keep h
    rw [prune] at h
    split at h
    · cases h
    · cases h
      refine ⟨rfl, ?_⟩
      intro args id r hm
      simp [discard, hm]
  · intro d idx d1 keep h
    rw [lprune] at h
    split at h
    · cases h
    · cases h
      refine ⟨rfl, ?_⟩
      intro args id r hm
      simp [ldiscard, hm]

/-- Concrete instance of the `prune` frame property: pruning the sample
dictionary down to id 1 leaves `pdiscard_` untouched while reassigning the
surviving word to id 0. -/
theorem c10_prune_pdiscard_unchanged_witness :
    (∃ d1 keep, prune dSample [1] = some (d1, keep) ∧
      d1.pdiscard = dSample.pdiscard ∧ d1.nwords = 1) := by
  have h : (prune dSample [1]).isSome = true := by decide
  match hp : prune dSample [1] with
  | some (d1, keep) =>
    have hfr := (c10_prune_pdiscard_unchanged.1 dSample [1] d1 keep hp).1
    refine ⟨d1, keep, rfl, hfr, ?_⟩
    have : (prune dSample [1]).map (fun p => p.1.nwords) = some 1 := by decide
    rw [hp] at this
    simpa using this
  | none => rw [hp] at h; cases h

/-! ### The ingestion scenario -/

/-- The byte stream `"a a a b b c </s> a b"` of the spec's scenario. -/
def scenarioBytes : List Nat :=
  [97, 32, 97, 32, 97, 32, 98, 32, 98, 32, 99, 32, 60, 47, 115, 62, 32, 97, 32, 98]

/-- C1 counterexample.  Ingesting the scenario stream with `minCount = 2`
does NOT leave the surviving entries `{a: 3, b: 2}`: ingestion continues
past the `</s>` sentinel, so the two tokens after it are counted as well. -/
theorem c1_scenario_claimed_counts_false :
    (readFromFile argsSample (mkStream scenarioBytes)).map (fun p => p.1.words)
      ≠ some [⟨[97], 3⟩, ⟨[98], 2⟩] := by
  decide

/-- C1 (amended).  Ingesting the scenario stream with `minCount = 2` yields
surviving entries exactly `{a: 4, b: 3}` in descending-count order (`c`,
`</s>` and their counts are removed), `nwords_ = 2`, and `ntokens_ = 9`
(counting the sentinel and the removed token). -/
theorem c1_scenario_actual :
    (readFromFile argsSample (mkStream scenarioBytes)).map
        (fun p => (p.1.words, p.1.nwords, p.1.ntokens))
      = some ([⟨[97], 4⟩, ⟨[98], 3⟩], 2, 9) := by
  decide

/-! ### The size invariant -/

theorem rebuildAux_count (allWs : List entry) :
    ∀ rest tbl n tbl' n', rebuildAux allWs rest tbl n = some (tbl', n') →
      n' = n + rest.length := by
  intro rest
  induction rest with
  | nil => intro tbl n tbl' n' h; cases h; simp
  | cons e rest ih =>
    intro tbl n tbl' n' h
    rw [rebuildAux] at h
    split at h
    · cases h
    · have := ih _ _ _ _ h
      simp only [List.length_cons]
      omega

theorem lrebuildAux_count (allWs : List lentry) :
    ∀ rest tbl n nw nl tbl' n' nw' nl',
      lrebuildAux allWs rest tbl n nw nl = some (tbl', n', nw', nl') →
      n' = n + rest.length := by
  intro rest
  induction rest with
  | nil => intro tbl n nw nl tbl' n' nw' nl' h; cases h; simp
  | cons e rest ih =>
    intro tbl n nw nl tbl' n' nw' nl' h
    rw [lrebuildAux] at h
    split at h
    · cases h
    · have := ih _ _ _ _ _ _ _ _ h
      simp only [List.length_cons]
      omega

theorem loadEntriesLoop_length :
    ∀ k bs ws tbl i ws' tbl' bs',
      loadEntriesLoop k bs ws tbl i = some (ws', tbl', bs') →
      ws'.length = ws.length + k := by
  intro k
  induction k with
  | zero => intro bs ws tbl i ws' tbl' bs' h; cases h; simp
  | succ k ih =>
    intro bs ws tbl i ws' tbl' bs' h
    rw [loadEntriesLoop] at h
    split at h
    · cases h
    · split at h
      · cases h
      · split at h
        · cases h
        · have := ih _ _ _ _ _ _ _ h
          simp at this
          omega

theorem lloadEntriesLoop_length :
    ∀ k bs ws tbl i ws' tbl' bs',
      lloadEntriesLoop k bs ws tbl i = some (ws', tbl', bs') →
      ws'.length = ws.length + k := by
  intro k
  induction k with
  | zero => intro bs ws tbl i ws' tbl' bs' h; cases h; simp
  | succ k ih =>
    intro bs ws tbl i ws' tbl' bs' h
    rw [lloadEntriesLoop] at h
    split at h
    · cases h
    · split at h
      · cases h
      · split at h
        · cases h
        · split at h
          · cases h
          · have := ih _ _ _ _ _ _ _ h
            simp at this
            omega

theorem pruneLoop_length (keep : List Int) :
    ∀ cnt i j ws tbl ws' tbl' j',
      pruneLoop keep cnt i j ws tbl = some (ws', tbl', j') →
      ws'.length = ws.length := by
  intro cnt
  induction cnt with
  | zero => intro i j ws tbl ws' tbl' j' h; cases h; rfl
  | succ cnt ih =>
    intro i j ws tbl ws' tbl' j' h
    rw [pruneLoop] at h
    split at h
    · split at h
      · cases h
      · have := ih _ _ _ _ _ _ _ h
        simpa using this
    · exact ih _ _ _ _ _ _ _ h

theorem lpruneLoop_length (keep : List Int) :
    ∀ cnt i j ws tbl ws' tbl' j',
      lpruneLoop keep cnt i j ws tbl = some (ws', tbl', j') →
      ws'.length = ws.length := by
  intro cnt
  induction cnt with
  | zero => intro i j ws tbl ws' tbl' j' h; cases h; rfl
  | succ cnt ih =>
    intro i j ws tbl ws' tbl' j' h
    rw [lpruneLoop] at h
    split at h
    · split at h
      · cases h
      · have := ih _ _ _ _ _ _ _ h
        simpa using this
    · exact ih _ _ _ _ _ _ _ h

/-- C3 counterexample.  `prune` does not truncate the entry store: pruning
the sample dictionary (which satisfies `nwords_ = words_.size()`) down to
one id leaves `words_.size()` at 2 while `nwords_` becomes 1, so the
invariant does not hold after every mutating operation. -/
theorem c3_invariant_fails_after_prune :
    dSample.nwords = dSample.words.length ∧
    (prune dSample [1]).map (fun p => decide (p.1.nwords = p.1.words.length))
      = some false := by
  exact ⟨by decide, by decide⟩

/-- C3 (amended).  The size invariant `nwords_ = words_.size()`
(respectively `size_ = words_.size()` in the label-aware variant) is
re-established by `add`, `threshold` and `load` in both variants; `prune`
instead leaves the entry store at its pre-prune length while setting
`nwords_` (and `size_`) from the kept-id list, so the invariant can fail
after `prune`. -/
theorem c3_size_invariant :
    (∀ d w d1, d.nwords = d.words.length → add d w = some d1 →
        d1.nwords = d1.words.length) ∧
    (∀ d t d1, threshold d t = some d1 → d1.nwords = d1.words.length) ∧
    (∀ args bs d1, load args bs = some d1 → d1.nwords = d1.words.length) ∧
    (∀ d idx d1 keep, prune d idx = some (d1, keep) →
        d1.words.length = d.words.length ∧ d1.nwords = keep.length) ∧
    (∀ args d w d1, d.size = d.words.length → ladd args d w = some d1 →
        d1.size = d1.words.length) ∧
    (∀ d t tl d1, lthreshold d t tl = some d1 → d1.size = d1.words.length) ∧
    (∀ args bs d1, lload args bs = some d1 → d1.size = d1.words.length) ∧
    (∀ d idx d1 keep, lprune d idx = some (d1, keep) →
        d1.words.length = d.words.length ∧ d1.size = keep.length + d.nlabels) := by
  refine ⟨?_, ?_, ?_, ?_, ?_, ?_, ?_, ?_⟩
  · intro d w d1 hlen h
    rw [add] at h
    split at h
    · cases h
    · split at h
      · cases h
        simp [hlen]
      · cases h
        simp [hlen]
  · intro d t d1 h
    rw [threshold] at h
    split at h
    · cases h
    · next tbl n heq =>
      cases h
      have := rebuildAux_count _ _ _ _ _ _ heq
      simpa using this
  · intro args bs d1 h
    rw [load] at h
    split at h
    · cases h
    · split at h
      · cases h
      · split at h
        · cases h
        · split at h
          · cases h
          · next ws tbl bs4 hws =>
            split at h
            · cases h
            · cases h
              have := loadEntriesLoop_length _ _ _ _ _ _ _ _ hws
              simp only [initTableDiscard]
              simp at this ⊢
              omega
  · intro d idx d1 keep h
    rw [prune] at h
    split at h
    · cases h
    · next ws tbl j heq =>
      cases h
      exact ⟨pruneLoop_length _ _ _ _ _ _ _ _ _ heq, rfl⟩
  · intro args d w d1 hlen h
    rw [ladd] at h
    split at h
    · cases h
    · split at h
      · cases h
        simp [hlen]
      · cases h
        simp [hlen]
  · intro d t tl d1 h
    rw [lthreshold] at h
    split at h
    · cases h
    · next tbl n nw nl heq =>
      cases h
      have := lrebuildAux_count _ _ _ _ _ _ _ _ _ _ heq
      simpa using this
  · intro args bs d1 h
    rw [lload] at h
    split at h
    · cases h
    · split at h
      · cases h
      · split at h
        · cases h
        · split at h
          · cases h
          · split at h
            · cases h
            · split at h
              · cases h
              · next ws tbl bs6 hws =>
                split at h
                · cases h
                · cases h
                  have := lloadEntriesLoop_length _ _ _ _ _ _ _ _ hws
                  simp only [linitTableDiscard]
                  simp at this ⊢
                  omega
  · intro d idx d1 keep h
    rw [lprune] at h
    split at h
    · cases h
    · next ws tbl j heq =>
      cases h
      exact ⟨lpruneLoop_length _ _ _ _ _ _ _ _ _ heq, rfl⟩

/-- Concrete instance of the size invariant: adding a fresh word to the
sample dictionary re-establishes `nwords_ = words_.size()`, and pruning it
to one id keeps the store length at 2 with `nwords_ = 1`. -/
theorem c3_size_invariant_witness :
    dSample.nwords = dSample.words.length ∧
    (∃ d1, add dSample [99] = some d1 ∧ d1.nwords = d1.words.length) ∧
    (∃ d1 keep, prune dSample [1] = some (d1, keep) ∧
      d1.words.length = dSample.words.length ∧ d1.nwords = keep.length) := by
  refine ⟨by decide, ?_, ?_⟩
  · have h : (add dSample [99]).isSome = true := by decide
    match hp : add dSample [99] with
    | some d1 =>
      exact ⟨d1, rfl, c3_size_invariant.1 dSample [99] d1 (by decide) hp⟩
    | none => rw [hp] at h; cases h
  · have h : (prune dSample [1]).isSome = true := by decide
    match hp : prune dSample [1] with
    | some (d1, keep) =>
      exact ⟨d1, keep, rfl, c3_size_invariant.2.2.2.1 dSample [1] d1 keep hp⟩
    | none => rw [hp] at h; cases h

/-! ### Byte-level lemmas for the serializer -/

theorem encLE_length (w : Nat) : ∀ n, (encLE w n).length = w := by
  induction w with
  | zero => intro n; rfl
  | succ w ih => intro n; simp [encLE, ih]

theorem decLE_encLE (w : Nat) : ∀ n, n < 256 ^ w → decLE (encLE w n) = n := by
  induction w with
  | zero =>
    intro n h
    have : n = 0 := by simpa using h
    simp [this, encLE, decLE]
  | succ w ih =>
    intro n h
    have hdiv : n / 256 < 256 ^ w := by
      rw [Nat.div_lt_iff_lt_mul (by norm_num)]
      calc n < 256 ^ (w + 1) := h
        _ = 256 ^ w * 256 := by ring
    have : decLE (encLE (w + 1) n) = n % 256 + 256 * decLE (encLE w (n / 256)) := rfl
    rw [this, ih _ hdiv]
    omega

theorem encInt_length (w : Nat) (i : Int) : (encInt w i).length = w := by
  rw [encInt, encLE_length]

theorem decInt_encInt (w : Nat) (hw : 0 < w) (i : Int)
    (hlo : -(2 ^ (8 * w - 1)) ≤ i) (hhi : i < 2 ^ (8 * w - 1)) :
    decInt w (encInt w i) = i := by
  have hNpos : (0 : Int) < 2 ^ (8 * w) := by positivity
  have h0 : 0 ≤ i.emod (2 ^ (8 * w)) := Int.emod_nonneg i (by positivity)
  have h1 : i.emod (2 ^ (8 * w)) < 2 ^ (8 * w) := Int.emod_lt_of_pos i hNpos
  have hm : ((i.emod (2 ^ (8 * w))).toNat : Int) = i.emod (2 ^ (8 * w)) :=
    Int.toNat_of_nonneg h0
  have hpow : ((256 : Nat) ^ w : Int) = 2 ^ (8 * w) := by
    push_cast
    rw [show ((256 : Int) = 2 ^ 8) by norm_num, ← pow_mul]
  have hlt : (i.emod (2 ^ (8 * w))).toNat < 256 ^ w := by
    have := h1
    omega
  rw [encInt, decInt]
  simp only [decLE_encLE w _ hlt]
  have hsplit : (2 : Int) ^ (8 * w) = 2 * 2 ^ (8 * w - 1) := by
    rw [← pow_succ']
    congr 1
    omega
  have hemod : i.emod (2 ^ (8 * w)) = i ∨ i.emod (2 ^ (8 * w)) = i + 2 ^ (8 * w) := by
    rcases le_or_lt 0 i with hge | hneg
    · left
      exact Int.emod_eq_of_lt hge (by omega)
    · right
      have : (i + 2 ^ (8 * w)).emod (2 ^ (8 * w)) = i.emod (2 ^ (8 * w)) :=
        Int.add_emod_self
      rw [← this]
      exact Int.emod_eq_of_lt (by omega) (by omega)
  have hpow' : ((2 : Nat) ^ (8 * w - 1) : Int) = 2 ^ (8 * w - 1) := by push_cast; rfl
  split
  next hcond =>
    have : ((i.emod (2 ^ (8 * w))).toNat : Int) < 2 ^ (8 * w - 1) := by
      rw [← hpow']
      exact_mod_cast Nat.cast_lt.mpr hcond
    omega
  next hcond =>
    have : ¬ ((i.emod (2 ^ (8 * w))).toNat : Int) < 2 ^ (8 * w - 1) := by
      rw [← hpow']
      intro hc
      exact hcond (by exact_mod_cast hc)
    omega

theorem readBytes_exact (w : Nat) (a bs : List Nat) (h : a.length = w) :
    readBytes w (a ++ bs) = some (a, bs) := by
  subst h
  rw [readBytes, if_pos (by simp)]
  rw [List.take_left, List.drop_left]

theorem readCString_append (word rest : List Nat) (h : ∀ c ∈ word, c ≠ 0) :
    readCString (word ++ 0 :: rest) = some (word, rest) := by
  induction word with
  | nil => simp [readCString]
  | cons c w ih =>
    have hc : c ≠ 0 := h c (by simp)
    have hw : ∀ c ∈ w, c ≠ 0 := fun c hc => h c (by simp [hc])
    simp [readCString, hc, ih hw]

theorem find_isSome_of_small (tbl : Table) (ws : List entry) (w : List Nat)
    (h : tbl.length < MAX_VOCAB_SIZE) : ∃ j, find tbl ws w = some j := by
  obtain ⟨e, he, hge⟩ := exists_empty_slot tbl h
  have hstart : fnv w % MAX_VOCAB_SIZE < MAX_VOCAB_SIZE := Nat.mod_lt _ (by decide)
  obtain ⟨k, hk, hke⟩ := exists_probe_offset _ e hstart he
  exact findAux_some_of_stop tbl ws w MAX_VOCAB_SIZE _ hstart
    ⟨k, hk, by rw [hke]; exact Or.inl hge⟩

theorem lfindAux_some_of_empty (tbl : Table) (ws : List lentry) (w : List Nat) :
    ∀ fuel i, i < MAX_VOCAB_SIZE →
      (∃ k < fuel, tableGet tbl ((i + k) % MAX_VOCAB_SIZE) = none) →
      ∃ j, lfindAux tbl ws w fuel i = some j := by
  intro fuel
  induction fuel with
  | zero => intro i _ h; obtain ⟨k, hk, _⟩ := h; omega
  | succ fuel ih =>
    intro i hi h
    rw [lfindAux]
    rcases hg : tableGet tbl i with _ | id
    · exact ⟨i, rfl⟩
    · by_cases hw : (lentryAt ws id).word = w
      · exact ⟨i, by simp [hw]⟩
      · simp only [hw, if_false]
        obtain ⟨k, hk, hstop⟩ := h
        have hk0 : k ≠ 0 := by
          intro h0
          subst h0
          rw [Nat.add_zero, Nat.mod_eq_of_lt hi] at hstop
          rw [hg] at hstop
          cases hstop
        refine ih ((i + 1) % MAX_VOCAB_SIZE) (Nat.mod_lt _ (by decide)) ⟨k - 1, by omega, ?_⟩
        have : ((i + 1) % MAX_VOCAB_SIZE + (k - 1)) % MAX_VOCAB_SIZE
            = (i + k) % MAX_VOCAB_SIZE := by
          rw [Nat.mod_add_mod]
          congr 1
          omega
        rw [this]
        exact hstop

theorem lfind_isSome_of_small (tbl : Table) (ws : List lentry) (w : List Nat)
    (h : tbl.length < MAX_VOCAB_SIZE) : ∃ j, lfind tbl ws w = some j := by
  obtain ⟨e, he, hge⟩ := exists_empty_slot tbl h
  have hstart : fnv w % MAX_VOCAB_SIZE < MAX_VOCAB_SIZE := Nat.mod_lt _ (by decide)
  obtain ⟨k, hk, hke⟩ := exists_probe_offset _ e hstart he
  exact lfindAux_some_of_empty tbl ws w MAX_VOCAB_SIZE _ hstart
    ⟨k, hk, by rw [hke]; exact hge⟩

theorem tableSet_length_le (tbl : Table) (i v : Nat) :
    (tableSet tbl i v).length ≤ tbl.length + 1 := by
  rw [tableSet]
  simp only [List.length_cons]
  have := List.length_filter_le (fun p : Nat × Nat => ¬ p.1 == i) tbl
  omega

/-! ### Round-trip of the serializer -/

theorem loadEntriesLoop_roundtrip (es : List entry) :
    ∀ bs ws tbl i,
      (∀ e ∈ es, (∀ c ∈ e.word, c ≠ 0) ∧ e.count < 2 ^ 63) →
      tbl.length + es.length ≤ MAX_VOCAB_SIZE →
      ∃ tbl', loadEntriesLoop es.length
          ((es.map (fun e => e.word ++ [0] ++ encInt 8 (e.count : Int))).flatten ++ bs)
          ws tbl i = some (ws ++ es, tbl', bs) ∧
        tbl'.length ≤ tbl.length + es.length := by
  induction es with
  | nil =>
    intro bs ws tbl i _ _
    exact ⟨tbl, by simp [loadEntriesLoop], by simp⟩
  | cons e es ih =>
    intro bs ws tbl i h hcap
    have hw : ∀ c ∈ e.word, c ≠ 0 := (h e (by simp)).1
    have hcnt : (decInt 8 (encInt 8 (e.count : Int))).toNat = e.count := by
      have hc := (h e (by simp)).2
      rw [decInt_encInt 8 (by norm_num) _ (by omega) (by exact_mod_cast hc)]
      exact Int.toNat_natCast e.count
    have heta : (⟨e.word, (decInt 8 (encInt 8 (e.count : Int))).toNat⟩ : entry) = e := by
      rw [hcnt]
    obtain ⟨j, hj⟩ := find_isSome_of_small tbl (ws ++ [e]) e.word
      (by simp at hcap; omega)
    have hlen : (e :: es).length = es.length + 1 := rfl
    rw [hlen, loadEntriesLoop]
    simp only [List.map_cons, List.flatten_cons, List.append_assoc,
      List.singleton_append, List.cons_append, List.nil_append]
    rw [readCString_append e.word _ hw]
    simp only []
    rw [readBytes_exact 8 (encInt 8 (e.count : Int)) _ (encInt_length 8 _)]
    simp only [heta]
    rw [hj]
    obtain ⟨tbl', htbl', hb⟩ := ih bs (ws ++ [e]) (tableSet tbl j i) (i + 1)
      (fun x hx => h x (by simp [hx]))
      (by have := tableSet_length_le tbl j i; simp at hcap; omega)
    simp only [List.singleton_append, List.cons_append, List.nil_append,
      List.append_assoc] at htbl'
    refine ⟨tbl', ?_, ?_⟩
    · exact htbl'
    · have := tableSet_length_le tbl j i
      omega

theorem loadPairsLoop_roundtrip (ps : List (Int × Int)) :
    ∀ bs acc,
      (∀ p ∈ ps, -(2 ^ 31) ≤ p.1 ∧ p.1 < 2 ^ 31 ∧ -(2 ^ 31) ≤ p.2 ∧ p.2 < 2 ^ 31) →
      loadPairsLoop ps.length
          ((ps.map (fun p => encInt 4 p.1 ++ encInt 4 p.2)).flatten ++ bs) acc
        = some (acc ++ ps, bs) := by
  induction ps with
  | nil => intro bs acc _; simp [loadPairsLoop]
  | cons p ps ih =>
    intro bs acc h
    have hp := h p (by simp)
    have hlen : (p :: ps).length = ps.length + 1 := rfl
    rw [hlen, loadPairsLoop]
    simp only [List.map_cons, List.flatten_cons, List.append_assoc]
    rw [readBytes_exact 4 (encInt 4 p.1) _ (encInt_length 4 _)]
    simp only []
    rw [readBytes_exact 4 (encInt 4 p.2) _ (encInt_length 4 _)]
    simp only []
    rw [decInt_encInt 4 (by norm_num) _ (by exact_mod_cast hp.1) (by exact_mod_cast hp.2.1),
      decInt_encInt 4 (by norm_num) _ (by exact_mod_cast hp.2.2.1) (by exact_mod_cast hp.2.2.2)]
    rw [ih bs (acc ++ [(p.1, p.2)]) (fun x hx => h x (by simp [hx]))]
    simp

theorem decType_encType (ty : EType) : decType ((encType ty).getD 0 0) = ty := by
  cases ty <;> rfl

theorem lloadEntriesLoop_roundtrip (es : List lentry) :
    ∀ bs ws tbl i,
      (∀ e ∈ es, (∀ c ∈ e.word, c ≠ 0) ∧ e.count < 2 ^ 63) →
      tbl.length + es.length ≤ MAX_VOCAB_SIZE →
      ∃ tbl', lloadEntriesLoop es.length
          ((es.map (fun e => e.word ++ [0] ++ encInt 8 (e.count : Int) ++ encType e.type)).flatten
            ++ bs) ws tbl i = some (ws ++ es, tbl', bs) ∧
        tbl'.length ≤ tbl.length + es.length := by
  induction es with
  | nil =>
    intro bs ws tbl i _ _
    exact ⟨tbl, by simp [lloadEntriesLoop], by simp⟩
  | cons e es ih =>
    intro bs ws tbl i h hcap
    have hw : ∀ c ∈ e.word, c ≠ 0 := (h e (by simp)).1
    have hcnt : (decInt 8 (encInt 8 (e.count : Int))).toNat = e.count := by
      have hc := (h e (by simp)).2
      rw [decInt_encInt 8 (by norm_num) _ (by omega) (by exact_mod_cast hc)]
      exact Int.toNat_natCast e.count
    have heta : (⟨e.word, (decInt 8 (encInt 8 (e.count : Int))).toNat,
        decType ((encType e.type).getD 0 0)⟩ : lentry) = e := by
      rw [hcnt, decType_encType]
    obtain ⟨j, hj⟩ := lfind_isSome_of_small tbl (ws ++ [e]) e.word
      (by simp at hcap; omega)
    have hlen : (e :: es).length = es.length + 1 := rfl
    rw [hlen, lloadEntriesLoop]
    simp only [List.map_cons, List.flatten_cons, List.append_assoc,
      List.singleton_append, List.cons_append, List.nil_append]
    rw [readCString_append e.word _ hw]
    simp only []
    rw [readBytes_exact 8 (encInt 8 (e.count : Int)) _ (encInt_length 8 _)]
    simp only []
    rw [readBytes_exact 1 (encType e.type) _ (by cases e.type <;> rfl)]
    simp only [heta]
    rw [hj]
    obtain ⟨tbl', htbl', hb⟩ := ih bs (ws ++ [e]) (tableSet tbl j i) (i + 1)
      (fun x hx => h x (by simp [hx]))
      (by have := tableSet_length_le tbl j i; simp at hcap; omega)
    simp only [List.singleton_append, List.cons_append, List.nil_append,
      List.append_assoc] at htbl'
    refine ⟨tbl', ?_, ?_⟩
    · exact htbl'
    · have := tableSet_length_le tbl j i
      omega

/-- Well-formedness of a built words-only dictionary for serialization:
counters match the store, the store is below table capacity, the counters
fit their C++ integer widths, words contain no NUL byte, and the prune-map
bookkeeping is consistent. -/
def saveWF (d : Dict) : Prop :=
  d.nwords = d.words.length ∧
  d.words.length < MAX_VOCAB_SIZE ∧
  (d.nwords : Int) < 2 ^ 31 ∧
  (d.ntokens : Int) < 2 ^ 63 ∧
  (∀ e ∈ d.words, (∀ c ∈ e.word, c ≠ 0) ∧ e.count < 2 ^ 63) ∧
  ((d.pruneidxSize = -1 ∧ d.pruneidx = []) ∨ d.pruneidxSize = (d.pruneidx.length : Int)) ∧
  (d.pruneidx.length : Int) < 2 ^ 63 ∧
  (∀ p ∈ d.pruneidx, -(2 ^ 31) ≤ p.1 ∧ p.1 < 2 ^ 31 ∧ -(2 ^ 31) ≤ p.2 ∧ p.2 < 2 ^ 31)

theorem load_save_eq (args : Args) (d : Dict) (hwf : saveWF d) :
    ∃ d1, load args (save d) = some d1 ∧
      d1.words = d.words ∧ d1.nwords = d.nwords ∧ d1.ntokens = d.ntokens ∧
      d1.pruneidxSize = d.pruneidxSize ∧ d1.pruneidx = d.pruneidx ∧
      d1.pdiscard = (initTableDiscard args.t d).pdiscard := by
  obtain ⟨hlen, hcap, hn32, ht64, hwords, hpsz, hplen, hpairs⟩ := hwf
  have hnw : decInt 4 (encInt 4 (d.nwords : Int)) = (d.nwords : Int) :=
    decInt_encInt 4 (by norm_num) _ (by omega) (by exact_mod_cast hn32)
  have hnt : decInt 8 (encInt 8 (d.ntokens : Int)) = (d.ntokens : Int) :=
    decInt_encInt 8 (by norm_num) _ (by omega) (by exact_mod_cast ht64)
  have hps : decInt 8 (encInt 8 d.pruneidxSize) = d.pruneidxSize := by
    refine decInt_encInt 8 (by norm_num) _ ?_ ?_
    · rcases hpsz with ⟨h1, _⟩ | h1 <;> rw [h1] <;> omega
    · rcases hpsz with ⟨h1, _⟩ | h1 <;> rw [h1] <;> omega
  have htake : d.words.take d.nwords = d.words := by
    rw [hlen]
    exact List.take_length d.words
  simp only [load, save, List.append_assoc, List.singleton_append,
    List.cons_append, List.nil_append, htake]
  rw [readBytes_exact 4 _ _ (encInt_length 4 _)]
  simp only []
  rw [readBytes_exact 8 _ _ (encInt_length 8 _)]
  simp only []
  rw [readBytes_exact 8 _ _ (encInt_length 8 _)]
  simp only [hnw, hnt, hps, Int.toNat_natCast]
  obtain ⟨tbl', hloop, _⟩ := loadEntriesLoop_roundtrip d.words
    ((d.pruneidx.map (fun p => encInt 4 p.1 ++ encInt 4 p.2)).flatten) [] tableEmpty 0
    hwords (by simpa [tableEmpty] using le_of_lt hcap)
  simp only [List.singleton_append, List.cons_append, List.nil_append,
    List.append_assoc] at hloop
  rw [← hlen] at hloop
  rw [hloop]
  simp only [List.nil_append]
  rcases hpsz with ⟨h1, h2⟩ | h1
  · rw [h1, h2]
    exact ⟨_, rfl, rfl, rfl, rfl, rfl, rfl, rfl⟩
  · rw [h1]
    have hpl := loadPairsLoop_roundtrip d.pruneidx [] [] hpairs
    rw [List.append_nil] at hpl
    rw [Int.toNat_natCast, hpl]
    exact ⟨_, rfl, rfl, rfl, rfl, rfl, rfl, rfl⟩

/-- Well-formedness of a built label-aware dictionary for serialization. -/
def lsaveWF (d : LDict) : Prop :=
  d.size = d.words.length ∧
  d.words.length < MAX_VOCAB_SIZE ∧
  (d.size : Int) < 2 ^ 31 ∧
  (d.nwords : Int) < 2 ^ 31 ∧
  (d.nlabels : Int) < 2 ^ 31 ∧
  (d.ntokens : Int) < 2 ^ 63 ∧
  (∀ e ∈ d.words, (∀ c ∈ e.word, c ≠ 0) ∧ e.count < 2 ^ 63) ∧
  ((d.pruneidxSize = -1 ∧ d.pruneidx = []) ∨ d.pruneidxSize = (d.pruneidx.length : Int)) ∧
  (d.pruneidx.length : Int) < 2 ^ 63 ∧
  (∀ p ∈ d.pruneidx, -(2 ^ 31) ≤ p.1 ∧ p.1 < 2 ^ 31 ∧ -(2 ^ 31) ≤ p.2 ∧ p.2 < 2 ^ 31)

theorem lload_lsave_eq (args : Args) (d : LDict) (hwf : lsaveWF d) :
    ∃ d1, lload args (lsave d) = some d1 ∧
      d1.words = d.words ∧ d1.nwords = d.nwords ∧ d1.nlabels = d.nlabels ∧
      d1.size = d.size ∧ d1.ntokens = d.ntokens ∧
      d1.pruneidxSize = d.pruneidxSize ∧ d1.pruneidx = d.pruneidx ∧
      d1.pdiscard = (linitTableDiscard args.t d).pdiscard := by
  obtain ⟨hlen, hcap, hs32, hn32, hl32, ht64, hwords, hpsz, hplen, hpairs⟩ := hwf
  have hsz : decInt 4 (encInt 4 (d.size : Int)) = (d.size : Int) :=
    decInt_encInt 4 (by norm_num) _ (by omega) (by exact_mod_cast hs32)
  have hnw : decInt 4 (encInt 4 (d.nwords : Int)) = (d.nwords : Int) :=
    decInt_encInt 4 (by norm_num) _ (by omega) (by exact_mod_cast hn32)
  have hnl : decInt 4 (encInt 4 (d.nlabels : Int)) = (d.nlabels : Int) :=
    decInt_encInt 4 (by norm_num) _ (by omega) (by exact_mod_cast hl32)
  have hnt : decInt 8 (encInt 8 (d.ntokens : Int)) = (d.ntokens : Int) :=
    decInt_encInt 8 (by norm_num) _ (by omega) (by exact_mod_cast ht64)
  have hps : decInt 8 (encInt 8 d.pruneidxSize) = d.pruneidxSize := by
    refine decInt_encInt 8 (by norm_num) _ ?_ ?_
    · rcases hpsz with ⟨h1, _⟩ | h1 <;> rw [h1] <;> omega
    · rcases hpsz with ⟨h1, _⟩ | h1 <;> rw [h1] <;> omega
  have htake : d.words.take d.size = d.words := by
    rw [hlen]
    exact List.take_length d.words
  simp only [lload, lsave, List.append_assoc, List.singleton_append,
    List.cons_append, List.nil_append, htake]
  rw [readBytes_exact 4 _ _ (encInt_length 4 _)]
  simp only []
  rw [readBytes_exact 4 _ _ (encInt_length 4 _)]
  simp only []
  rw [readBytes_exact 4 _ _ (encInt_length 4 _)]
  simp only []
  rw [readBytes_exact 8 _ _ (encInt_length 8 _)]
  simp only []
  rw [readBytes_exact 8 _ _ (encInt_length 8 _)]
  simp only [hsz, hnw, hnl, hnt, hps, Int.toNat_natCast]
  obtain ⟨tbl', hloop, _⟩ := lloadEntriesLoop_roundtrip d.words
    ((d.pruneidx.map (fun p => encInt 4 p.1 ++ encInt 4 p.2)).flatten) [] tableEmpty 0
    hwords (by simpa [tableEmpty] using le_of_lt hcap)
  simp only [List.singleton_append, List.cons_append, List.nil_append,
    List.append_assoc] at hloop
  rw [← hlen] at hloop
  rw [hloop]
  simp only [List.nil_append]
  rcases hpsz with ⟨h1, h2⟩ | h1
  · rw [h1, h2]
    exact ⟨_, rfl, rfl, rfl, rfl, rfl, rfl, rfl, rfl, rfl⟩
  · rw [h1]
    have hpl := loadPairsLoop_roundtrip d.pruneidx [] [] hpairs
    rw [List.append_nil] at hpl
    rw [Int.toNat_natCast, hpl]
    exact ⟨_, rfl, rfl, rfl, rfl, rfl, rfl, rfl, rfl, rfl⟩

/-- C6.  For every built dictionary (well-formed per `saveWF` / `lsaveWF`),
`save` followed by `load` reproduces the entry sequence (word and count;
also the type tag in the label-aware variant), the counters, the prune
map, and — the subsampling table being recomputed by `load` — the same
`pdiscard_` values; in particular a dictionary whose `pdiscard_` was
freshly computed round-trips it unchanged. -/
theorem c6_save_load_roundtrip :
    (∀ args d, saveWF d →
      ∃ d1, load args (save d) = some d1 ∧
        d1.words = d.words ∧ d1.nwords = d.nwords ∧ d1.ntokens = d.ntokens ∧
        d1.pruneidxSize = d.pruneidxSize ∧ d1.pruneidx = d.pruneidx ∧
        d1.pdiscard = (initTableDiscard args.t d).pdiscard ∧
        (d.pdiscard = (initTableDiscard args.t d).pdiscard →
          d1.pdiscard = d.pdiscard)) ∧
    (∀ args d, lsaveWF d →
      ∃ d1, lload args (lsave d) = some d1 ∧
        d1.words = d.words ∧ d1.nwords = d.nwords ∧ d1.nlabels = d.nlabels ∧
        d1.size = d.size ∧ d1.ntokens = d.ntokens ∧
        d1.pruneidxSize = d.pruneidxSize ∧ d1.pruneidx = d.pruneidx ∧
        d1.pdiscard = (linitTableDiscard args.t d).pdiscard ∧
        (d.pdiscard = (linitTableDiscard args.t d).pdiscard →
          d1.pdiscard = d.pdiscard)) := by
  constructor
  · intro args d hwf
    obtain ⟨d1, h1, h2, h3, h4, h5, h6, h7⟩ := load_save_eq args d hwf
    exact ⟨d1, h1, h2, h3, h4, h5, h6, h7, fun hf => h7.trans hf.symm⟩
  · intro args d hwf
    obtain ⟨d1, h1, h2, h3, h4, h5, h6, h7, h8, h9⟩ := lload_lsave_eq args d hwf
    exact ⟨d1, h1, h2, h3, h4, h5, h6, h7, h8, h9, fun hf => h9.trans hf.symm⟩

/-- Sample words-only dictionary with a freshly computed subsampling table,
used by the round-trip witness. -/
def dRound : Dict :=
  { word2int := tableEmpty
    words := [⟨[97], 4⟩, ⟨[98], 3⟩]
    pdiscard := [pdiscardVal argsSample.t 4 9, pdiscardVal argsSample.t 3 9]
    nwords := 2
    ntokens := 9
    pruneidxSize := -1
    pruneidx := [] }

/-- Sample label-aware dictionary with a freshly computed subsampling
table, used by the round-trip witness. -/
def lRound : LDict :=
  { word2int := tableEmpty
    words := [⟨[97], 4, EType.word⟩, ⟨[108], 2, EType.label⟩]
    pdiscard := [pdiscardVal argsSample.t 4 9, pdiscardVal argsSample.t 2 9]
    nwords := 1
    nlabels := 1
    size := 2
    ntokens := 9
    pruneidxSize := -1
    pruneidx := [] }

/-- Concrete instance of the round-trip: the two sample dictionaries
reload with identical entries and identical subsampling tables. -/
theorem c6_save_load_roundtrip_witness :
    (saveWF dRound ∧
      ∃ d1, load argsSample (save dRound) = some d1 ∧
        d1.words = dRound.words ∧ d1.ntokens = dRound.ntokens ∧
        d1.pdiscard = dRound.pdiscard) ∧
    (lsaveWF lRound ∧
      ∃ d1, lload argsSample (lsave lRound) = some d1 ∧
        d1.words = lRound.words ∧ d1.pdiscard = lRound.pdiscard) := by
  constructor
  · have hwf : saveWF dRound := by unfold saveWF; decide
    obtain ⟨d1, h1, h2, h3, h4, h5, h6, h7, h8⟩ :=
      c6_save_load_roundtrip.1 argsSample dRound hwf
    exact ⟨hwf, d1, h1, h2, h4, h8 rfl⟩
  · have hwf : lsaveWF lRound := by unfold lsaveWF; decide
    obtain ⟨d1, h1, h2, h3, h4, h5, h6, h7, h8, h9, h10⟩ :=
      c6_save_load_roundtrip.2 argsSample lRound hwf
    exact ⟨hwf, d1, h1, h2, h10 rfl⟩

/-! ### The raw token sequence of a byte stream -/

theorem readWordAux_rem_le (rem : List Nat) :
    ∀ acc, acc ≠ [] → (readWordAux rem acc).2.1.length ≤ rem.length := by
  induction rem with
  | nil => intro acc _; simp [readWordAux]
  | cons c rest ih =>
    intro acc hacc
    by_cases h255 : (c == 255) = true
    · cases rest with
      | nil => simp [readWordAux, h255]
      | cons b rest' =>
        simp only [readWordAux, h255, if_true, List.length_cons]
        omega
    · by_cases hs : isSep c
      · by_cases h10 : (c == 10) = true
        · simp [readWordAux, h255, hs, List.isEmpty_iff, hacc, h10]
        · simp [readWordAux, h255, hs, List.isEmpty_iff, hacc, h10]
      · have := ih (c :: acc) (by simp)
        simp only [readWordAux, h255, hs, if_false, Bool.false_eq_true]
        simp only [List.length_cons]
        omega

theorem readWordAux_rem_lt (rem : List Nat) :
    ∀ t rem' e, readWordAux rem [] = (some t, rem', e) → rem'.length < rem.length := by
  induction rem with
  | nil => intro t rem' e h; simp [readWordAux] at h
  | cons c rest ih =>
    intro t rem' e h
    by_cases h255 : (c == 255) = true
    · cases rest with
      | nil => simp [readWordAux, h255] at h
      | cons b rest' => simp [readWordAux, h255] at h
    · by_cases hs : isSep c
      · by_cases h10 : (c == 10) = true
        · simp [readWordAux, h255, hs, h10] at h
          simp [← h.2.1]
        · simp only [readWordAux, h255, hs, if_true, List.isEmpty_nil, h10,
            Bool.false_eq_true, if_false] at h
          have := ih t rem' e h
          simp only [List.length_cons]
          omega
      · simp only [readWordAux, h255, hs, if_false, Bool.false_eq_true] at h
        by_cases hlen : rest.length = 0
        · rcases List.length_eq_zero.mp hlen with rfl
          simp [readWordAux] at h
          simp [← h.2.1]
        · have hle := readWordAux_rem_le rest [c] (by simp)
          rw [h] at hle
          simp at hle
          simp only [List.length_cons]
          omega

/-- The sequence of raw tokens produced by repeatedly calling `readWord`
on the remaining bytes, with fuel (one token consumes at least one byte). -/
def tokensAux : Nat → List Nat → List (List Nat)
  | 0, _ => []
  | fuel + 1, rem =>
    match readWordAux rem [] with
    | (none, _, _) => []
    | (some t, rem', _) => t :: tokensAux fuel rem'

/-- The raw token sequence of a byte list. -/
def tokensOf (bs : List Nat) : List (List Nat) := tokensAux (bs.length + 1) bs

theorem tokensAux_stable (L : Nat) :
    ∀ rem : List Nat, rem.length ≤ L → ∀ f1 f2, rem.length < f1 → rem.length < f2 →
      tokensAux f1 rem = tokensAux f2 rem := by
  induction L with
  | zero =>
    intro rem hL f1 f2 h1 h2
    have : rem = [] := List.length_eq_zero.mp (by omega)
    subst this
    rcases f1 with _ | f1
    · omega
    · rcases f2 with _ | f2
      · omega
      · simp [tokensAux, readWordAux]
  | succ L ih =>
    intro rem hL f1 f2 h1 h2
    rcases f1 with _ | f1
    · omega
    rcases f2 with _ | f2
    · omega
    rw [tokensAux, tokensAux]
    rcases hr : readWordAux rem [] with ⟨t, rem', e⟩
    rcases t with _ | t
    · rfl
    · have hlt := readWordAux_rem_lt rem t rem' e hr
      have heq := ih rem' (by omega) f1 f2 (by omega) (by omega)
      show t :: tokensAux f1 rem' = t :: tokensAux f2 rem'
      rw [heq]

theorem tokensOf_cons (s : IStream) (tok : List Nat) (s1 : IStream)
    (h : readWord s = (some tok, s1)) :
    tokensOf s.rem = tok :: tokensOf s1.rem := by
  rcases hr : readWordAux s.rem [] with ⟨t, rem', e⟩
  have ht : t = some tok := by
    have h2 := congrArg Prod.fst h
    simpa [readWord, hr] using h2
  subst ht
  have hrem' : rem' = s1.rem := by
    have h2 := congrArg (fun p => p.2.rem) h
    simpa [readWord, hr] using h2
  subst hrem'
  have hlt := readWordAux_rem_lt s.rem tok s1.rem e hr
  show tokensAux (s.rem.length + 1) s.rem = tok :: tokensOf s1.rem
  rw [tokensAux, hr]
  show tok :: tokensAux s.rem.length s1.rem = tok :: tokensOf s1.rem
  rw [tokensOf]
  congr 1
  exact tokensAux_stable s1.rem.length s1.rem le_rfl s.rem.length
    (s1.rem.length + 1) (by omega) (by omega)

theorem tokensOf_nil (s : IStream) (s1 : IStream)
    (h : readWord s = (none, s1)) : tokensOf s.rem = [] := by
  rcases hr : readWordAux s.rem [] with ⟨t, rem', e⟩
  have ht : t = none := by
    have h2 := congrArg Prod.fst h
    simpa [readWord, hr] using h2
  subst ht
  show tokensAux (s.rem.length + 1) s.rem = []
  rw [tokensAux, hr]

/-! ### Counting semantics of the words-only `getLine` -/

/-- Whether a token resolves to an in-vocabulary word id (`word2int_` slot
occupied at the probed position). -/
def inVocab (d : Dict) (t : List Nat) : Bool :=
  match find d.word2int d.words t with
  | none => false
  | some h => (tableGet d.word2int h).isSome

theorem getLineLoop_count (args : Args) (d : Dict) (rng : Nat → ℚ) :
    ∀ fuel s k n acc r, n ≤ MAX_LINE_SIZE →
      getLineLoop args d rng fuel s k n acc = some r →
      ∃ m, m ≤ (tokensOf s.rem).length ∧
        r.1 = n + (((tokensOf s.rem).take m).filter (inVocab d)).length ∧
        r.1 ≤ MAX_LINE_SIZE + 1 := by
  intro fuel
  induction fuel with
  | zero => intro s k n acc r _ h; simp [getLineLoop] at h
  | succ fuel ih =>
    intro s k n acc r hn h
    rw [getLineLoop] at h
    split at h
    · next s1 hread =>
      cases h
      exact ⟨0, by simp, by simp, by simpa using hn.trans (by omega)⟩
    · next tok s1 hread =>
      rw [tokensOf_cons s tok s1 hread]
      split at h
      · cases h
      · next slot hfind =>
        split at h
        · next hget =>
          obtain ⟨m, hm, hcount, hbound⟩ := ih s1 k n acc r hn h
          refine ⟨m + 1, by simpa using hm, ?_, hbound⟩
          have hiv : inVocab d tok = false := by
            rw [inVocab, hfind]
            show (tableGet d.word2int slot).isSome = false
            rw [hget]
            rfl
          simpa [List.take_succ_cons, List.filter_cons, hiv] using hcount
        · next wid hget =>
          have hiv : inVocab d tok = true := by
            rw [inVocab, hfind]
            show (tableGet d.word2int slot).isSome = true
            rw [hget]
            rfl
          split at h
          · cases h
            refine ⟨1, by simp, ?_, by omega⟩
            simp [List.take_succ_cons, List.filter_cons, hiv]
          · next hcond =>
            have hn1 : n + 1 ≤ MAX_LINE_SIZE := by
              rcases not_or.mp hcond with ⟨h1, _⟩
              omega
            obtain ⟨m, hm, hcount, hbound⟩ := ih s1 (k + 1) (n + 1) _ r hn1 h
            refine ⟨m + 1, by simpa using hm, ?_, hbound⟩
            simp only [List.take_succ_cons, List.filter_cons, hiv, if_true]
            simp only [List.length_cons]
            omega

theorem getLineLoop_count_rng (args : Args) (d : Dict) :
    ∀ fuel s n, ∀ rng1 rng2 k1 k2 acc1 acc2,
      (getLineLoop args d rng1 fuel s k1 n acc1).map (fun r => r.1)
        = (getLineLoop args d rng2 fuel s k2 n acc2).map (fun r => r.1) := by
  intro fuel
  induction fuel with
  | zero => intro s n rng1 rng2 k1 k2 acc1 acc2; rfl
  | succ fuel ih =>
    intro s n rng1 rng2 k1 k2 acc1 acc2
    rw [getLineLoop, getLineLoop]
    rcases hread : readWord s with ⟨t, s1⟩
    rcases t with _ | tok
    · simp
    · rcases hfind : find d.word2int d.words tok with _ | slot
      · simp [hfind]
      · rcases hget : tableGet d.word2int slot with _ | wid
        · simp only [hfind, hget]
          exact ih s1 n rng1 rng2 k1 k2 acc1 acc2
        · by_cases hc : MAX_LINE_SIZE < n + 1 ∨ tok = EOS
          · simp [hfind, hget, hc]
          · simp only [hfind, hget, hc, if_false]
            exact ih s1 (n + 1) rng1 rng2 (k1 + 1) (k2 + 1) _ _

/-- The dictionary produced by the C1 ingestion scenario (with its hash
table), used by concrete `getLine` instances. -/
def dScenario : Dict :=
  ((readFromFile argsSample (mkStream scenarioBytes)).map Prod.fst).getD emptyDict

/-- C4 counterexample.  On the vocabulary `{a, b}` of the ingestion
scenario and the stream `"x a\n"`, the words-only `getLine` consumes the
whole stream — three raw tokens `x`, `a`, `</s>` — but returns 1: tokens
that are out of vocabulary are skipped before the counter is incremented,
so the return value is not the number of raw tokens consumed. -/
theorem c4_oov_tokens_not_counted :
    (getLine argsSample dScenario (mkStream [120, 32, 97, 10]) (fun _ => 0)).map
        (fun r => r.1) = some 1 ∧
    (getLine argsSample dScenario (mkStream [120, 32, 97, 10]) (fun _ => 0)).map
        (fun r => r.2.2.1.rem) = some [] ∧
    (tokensOf [120, 32, 97, 10]).length = 3 := by
  refine ⟨by decide, by decide, by decide⟩

/-- C4 (amended).  Whenever the words-only `getLine` returns, its return
value is the number of in-vocabulary tokens among the raw tokens consumed
on that call (a prefix of the stream's token sequence) — so tokens
discarded by subsampling are counted but out-of-vocabulary tokens are not
— the value is independent of the caller's random source, and the line is
truncated once this count exceeds `MAX_LINE_SIZE = 1024` tokens (the
return value never exceeds 1025), without requiring the end-of-line
sentinel. -/
theorem c4_getLine_token_count (args : Args) (d : Dict) (s : IStream)
    (rng : Nat → ℚ) (r : Nat × List Nat × IStream × Nat)
    (h : getLine args d s rng = some r) :
    (∃ m, m ≤ (tokensOf (reset s).rem).length ∧
      r.1 = (((tokensOf (reset s).rem).take m).filter (inVocab d)).length ∧
      r.1 ≤ MAX_LINE_SIZE + 1) ∧
    (∀ rng2 r2, getLine args d s rng2 = some r2 → r2.1 = r.1) := by
  constructor
  · have := getLineLoop_count args d rng ((reset s).rem.length + 1) (reset s) 0 0 [] r
      (by rw [MAX_LINE_SIZE]; omega) h
    simpa using this
  · intro rng2 r2 h2
    have := getLineLoop_count_rng args d ((reset s).rem.length + 1) (reset s) 0
      rng rng2 0 0 [] []
    rw [getLine] at h h2
    rw [h, h2] at this
    simpa using this.symm

/-- Concrete instance of the `getLine` counting contract on the stream
`"a\n"`: one in-vocabulary token is counted (the out-of-vocabulary
sentinel is consumed but not counted) and the bound holds. -/
theorem c4_getLine_token_count_witness :
    ∃ r, getLine argsSample dScenario (mkStream [97, 10]) (fun _ => 0) = some r ∧
      (∃ m, m ≤ (tokensOf (reset (mkStream [97, 10])).rem).length ∧
        r.1 = (((tokensOf (reset (mkStream [97, 10])).rem).take m).filter
          (inVocab dScenario)).length ∧
        r.1 ≤ MAX_LINE_SIZE + 1) := by
  have hs : (getLine argsSample dScenario (mkStream [97, 10]) (fun _ => 0)).isSome = true := by
    decide
  match hp : getLine argsSample dScenario (mkStream [97, 10]) (fun _ => 0) with
  | some r =>
    have := (c4_getLine_token_count argsSample dScenario (mkStream [97, 10])
      (fun _ => 0) r hp).1
    exact ⟨r, rfl, this⟩
  | none => rw [hp] at hs; cases hs

/-! ### Classification semantics of the label-aware `getLine` -/

/-- The id a token resolves to in the label-aware table (`-1` when the
probed slot is empty, i.e. out of vocabulary). -/
def lwidOf (d : LDict) (t : List Nat) : Int :=
  match lfind d.word2int d.words t with
  | none => -1
  | some h =>
    match tableGet d.word2int h with
    | none => -1
    | some id => (id : Int)

/-- The type a token is classified as: the stored entry's type when in
vocabulary, else the label-marker convention. -/
def ltypeOf (args : Args) (d : LDict) (t : List Nat) : EType :=
  match lfind d.word2int d.words t with
  | none => typeOfToken args t
  | some h =>
    match tableGet d.word2int h with
    | none => typeOfToken args t
    | some id => (lentryAt d.words id).type

/-- Modelled from the spec: the claimed behaviour of the label-aware
`getLine` with subsampling applied to word ids — "appends word ids to
`outWords` (after subsampling)" — used to compare the spec's words against
the source, which performs no subsampling in this overload. -/
def lgetLineSpecLoop (args : Args) (d : LDict) (rng : Nat → ℚ) :
    Nat → IStream → Nat → Nat → List Int → List Int →
    Option (Nat × List Int × List Int × IStream)
  | 0, _, _, _, _, _ => none
  | fuel + 1, s, k, n, accW, accL =>
    match readWord s with
    | (none, s1) => some (n, accW, accL, s1)
    | (some tok, s1) =>
      match lfind d.word2int d.words tok with
      | none => none
      | some h =>
        let wid : Int := match tableGet d.word2int h with
          | none => -1
          | some id => (id : Int)
        let ty : EType := match tableGet d.word2int h with
          | none => typeOfToken args tok
          | some id => (lentryAt d.words id).type
        let accW1 := if ty = EType.word ∧ 0 ≤ wid ∧
            ¬ ldiscard args d wid.toNat (rng k) then accW ++ [wid] else accW
        let accL1 := if ty = EType.label ∧ 0 ≤ wid
          then accL ++ [wid - (d.nwords : Int)] else accL
        if tok = EOS then some (n + 1, accW1, accL1, s1)
        else lgetLineSpecLoop args d rng fuel s1 (k + 1) (n + 1) accW1 accL1

/-- Modelled from the spec: `getLine` with subsampled word ids. -/
def lgetLineSpec (args : Args) (d : LDict) (s : IStream) (rng : Nat → ℚ) :
    Option (Nat × List Int × List Int × IStream) :=
  let s0 := reset s
  lgetLineSpecLoop args d rng (s0.rem.length + 1) s0 0 0 [] []

/-- A raw label-aware vocabulary `{a: 4 (word), __l: 2 (label)}` without
its hash table. -/
def dLblRaw : LDict :=
  { word2int := tableEmpty
    words := [⟨[97], 4, EType.word⟩, ⟨[95, 95, 108], 2, EType.label⟩]
    pdiscard := []
    nwords := 0
    nlabels := 0
    size := 0
    ntokens := 9
    pruneidxSize := -1
    pruneidx := [] }

/-- The indexed label-aware sample vocabulary, with a subsampling table
that discards the word `a` at any positive random draw. -/
def dLbl : LDict :=
  { ((lthreshold dLblRaw 1 1).getD emptyLDict) with pdiscard := [0, 1] }

/-- C5 counterexample.  On the sample label-aware vocabulary and the
stream `"a\n"`, with a random source that always draws 1 (which would
subsample the word `a` away, since its discard probability is 0), the
label-aware `getLine` still returns `outWords = [0, -1]` — the word id is
appended with no subsampling applied, and the out-of-vocabulary sentinel
is appended as `-1` — while the spec's subsampling behaviour would
produce `[-1]`. -/
theorem c5_no_subsampling_in_labels_overload :
    (lgetLine argsSample dLbl (mkStream [97, 10]) (fun _ => 1)).map
        (fun r => r.2.1) = some [0, -1] ∧
    (lgetLineSpec argsSample dLbl (mkStream [97, 10]) (fun _ => 1)).map
        (fun r => r.2.1) = some [] ∧
    ([0, -1] : List Int) ≠ [] := by
  refine ⟨by decide, by decide, by decide⟩

theorem lgetLineLoop_spec (args : Args) (d : LDict) :
    ∀ fuel s n accW accL r,
      lgetLineLoop args d fuel s n accW accL = some r →
      ∃ m, m ≤ (tokensOf s.rem).length ∧
        r.1 = n + m ∧
        r.2.1 = accW ++ (((tokensOf s.rem).take m).filter
            (fun t => decide (ltypeOf args d t = EType.word))).map (lwidOf d) ∧
        r.2.2.1 = accL ++ (((tokensOf s.rem).take m).filter
            (fun t => decide (ltypeOf args d t = EType.label ∧ 0 ≤ lwidOf d t))).map
            (fun t => lwidOf d t - (d.nwords : Int)) ∧
        ((tokensOf s.rem).take m = tokensOf s.rem ∨ EOS ∈ (tokensOf s.rem).take m) := by
  intro fuel
  induction fuel with
  | zero => intro s n accW accL r h; simp [lgetLineLoop] at h
  | succ fuel ih =>
    intro s n accW accL r h
    rw [lgetLineLoop] at h
    split at h
    · next s1 hread =>
      cases h
      rw [tokensOf_nil s s1 hread]
      exact ⟨0, by simp, by simp, by simp, by simp, by simp⟩
    · next tok s1 hread =>
      rw [tokensOf_cons s tok s1 hread]
      split at h
      · cases h
      · next slot hfind =>
        split at h
        · next hget =>
          have hwid : lwidOf d tok = -1 := by simp [lwidOf, hfind, hget]
          have hty : ltypeOf args d tok = typeOfToken args tok := by
            simp [ltypeOf, hfind, hget]
          split at h
          · next hc =>
            cases h
            refine ⟨1, by simp, by simp, ?_, ?_, Or.inr (by simp [hc])⟩
            · rcases htok : typeOfToken args tok with _ | _ <;>
                simp [List.filter_cons, hty, htok, hwid]
            · rcases htok : typeOfToken args tok with _ | _ <;>
                simp [List.filter_cons, hty, htok, hwid]
          · next hc =>
            obtain ⟨m, hm, hn, hw, hl, hstop⟩ := ih s1 (n + 1) _ _ r h
            refine ⟨m + 1, by simpa using hm, by omega, ?_, ?_, ?_⟩
            · rw [hw]
              rcases htok : typeOfToken args tok with _ | _ <;>
                simp [List.take_succ_cons, List.filter_cons, hty, htok, hwid]
            · rw [hl]
              rcases htok : typeOfToken args tok with _ | _ <;>
                simp [List.take_succ_cons, List.filter_cons, hty, htok, hwid]
            · rcases hstop with hall | hmem
              · left
                simp [List.take_succ_cons, hall]
              · right
                simp [List.take_succ_cons, hmem]
        · next id hget =>
          have hwid : lwidOf d tok = (id : Int) := by simp [lwidOf, hfind, hget]
          have hty : ltypeOf args d tok = (lentryAt d.words id).type := by
            simp [ltypeOf, hfind, hget]
          split at h
          · next hc =>
            cases h
            refine ⟨1, by simp, by simp, ?_, ?_, Or.inr (by simp [hc])⟩
            · rcases hety : (lentryAt d.words id).type with _ | _ <;>
                simp [List.filter_cons, hty, hety, hwid]
            · rcases hety : (lentryAt d.words id).type with _ | _ <;>
                simp [List.filter_cons, hty, hety, hwid]
          · next hc =>
            obtain ⟨m, hm, hn, hw, hl, hstop⟩ := ih s1 (n + 1) _ _ r h
            refine ⟨m + 1, by simpa using hm, by omega, ?_, ?_, ?_⟩
            · rw [hw]
              rcases hety : (lentryAt d.words id).type with _ | _ <;>
                simp [List.take_succ_cons, List.filter_cons, hty, hety, hwid]
            · rw [hl]
              rcases hety : (lentryAt d.words id).type with _ | _ <;>
                simp [List.take_succ_cons, List.filter_cons, hty, hety, hwid]
            · rcases hstop with hall | hmem
              · left
                simp [List.take_succ_cons, hall]
              · right
                simp [List.take_succ_cons, hmem]

/-- C5 (amended).  The label-aware `getLine(stream, outWords, outLabels,
randomSource)` classifies each token via hash-index lookup, falling back
to the label-prefix convention when the token is out of vocabulary;
word-type tokens append their id to `outWords` with NO subsampling applied
(out-of-vocabulary word-type tokens append `-1`); in-vocabulary label
tokens append their id offset by `-nwords_` to `outLabels`; every consumed
token is counted; the loop stops at the `</s>` sentinel; and the random
source is never consulted. -/
theorem c5_lgetLine_classification (args : Args) (d : LDict) (s : IStream)
    (rng : Nat → ℚ) (r : Nat × List Int × List Int × IStream)
    (h : lgetLine args d s rng = some r) :
    (∃ m, m ≤ (tokensOf (reset s).rem).length ∧
      r.1 = m ∧
      r.2.1 = (((tokensOf (reset s).rem).take m).filter
          (fun t => decide (ltypeOf args d t = EType.word))).map (lwidOf d) ∧
      r.2.2.1 = (((tokensOf (reset s).rem).take m).filter
          (fun t => decide (ltypeOf args d t = EType.label ∧ 0 ≤ lwidOf d t))).map
          (fun t => lwidOf d t - (d.nwords : Int)) ∧
      ((tokensOf (reset s).rem).take m = tokensOf (reset s).rem ∨
        EOS ∈ (tokensOf (reset s).rem).take m)) ∧
    (∀ rng2, lgetLine args d s rng2 = lgetLine args d s rng) := by
  constructor
  · have := lgetLineLoop_spec args d ((reset s).rem.length + 1) (reset s) 0 [] [] r h
    simpa using this
  · intro rng2
    rfl

/-- Concrete instance of the label-aware `getLine` contract on the stream
`"a __l\n"` over the sample vocabulary: three tokens are consumed, the
word list is `[0, -1]` (word `a`, then the out-of-vocabulary sentinel) and
the label list is `[0]` (label `__l` offset by `-nwords_`). -/
theorem c5_lgetLine_classification_witness :
    ∃ r, lgetLine argsSample dLbl (mkStream [97, 32, 95, 95, 108, 10]) (fun _ => 0)
        = some r ∧
      (∃ m, m ≤ (tokensOf (reset (mkStream [97, 32, 95, 95, 108, 10])).rem).length ∧
        r.1 = m ∧
        r.2.1 = (((tokensOf (reset (mkStream [97, 32, 95, 95, 108, 10])).rem).take m).filter
            (fun t => decide (ltypeOf argsSample dLbl t = EType.word))).map (lwidOf dLbl) ∧
        r.2.2.1 = (((tokensOf (reset (mkStream [97, 32, 95, 95, 108, 10])).rem).take m).filter
            (fun t => decide (ltypeOf argsSample dLbl t = EType.label ∧
              0 ≤ lwidOf dLbl t))).map
            (fun t => lwidOf dLbl t - (dLbl.nwords : Int)) ∧
        ((tokensOf (reset (mkStream [97, 32, 95, 95, 108, 10])).rem).take m
            = tokensOf (reset (mkStream [97, 32, 95, 95, 108, 10])).rem ∨
          EOS ∈ (tokensOf (reset (mkStream [97, 32, 95, 95, 108, 10])).rem).take m)) := by
  have hs : (lgetLine argsSample dLbl (mkStream [97, 32, 95, 95, 108, 10])
      (fun _ => 0)).isSome = true := by decide
  match hp : lgetLine argsSample dLbl (mkStream [97, 32, 95, 95, 108, 10]) (fun _ => 0) with
  | some r =>
    have := (c5_lgetLine_classification argsSample dLbl
      (mkStream [97, 32, 95, 95, 108, 10]) (fun _ => 0) r hp).1
    exact ⟨r, rfl, this⟩
  | none => rw [hp] at hs; cases hs

/-! ### List lemmas for the prune characterization -/

theorem getD_drop' {α : Type} (dflt : α) :
    ∀ (k : Nat) (l : List α) (p : Nat), k ≤ p →
      l.getD p dflt = (l.drop k).getD (p - k) dflt := by
  intro k
  induction k with
  | zero => intro l p _; simp
  | succ k ih =>
    intro l p hp
    cases l with
    | nil => simp [List.getD]
    | cons a l =>
      cases p with
      | zero => omega
      | succ p =>
        simp only [List.drop_succ_cons, List.getD_cons_succ]
        rw [ih l p (by omega)]
        congr 1
        omega

theorem getD_eq_of_drop_eq {α : Type} (dflt : α) (l1 l2 : List α) (k p : Nat)
    (h : l1.drop k = l2.drop k) (hk : k ≤ p) :
    l1.getD p dflt = l2.getD p dflt := by
  rw [getD_drop' dflt k l1 p hk, getD_drop' dflt k l2 p hk, h]

theorem getD_set_ne {α : Type} (dflt : α) (l : List α) (j x : Nat) (v : α)
    (h : j ≠ x) : (l.set j v).getD x dflt = l.getD x dflt := by
  simp [List.getD_eq_getElem?_getD, List.getElem?_set_ne h]

theorem take_set_succ {α : Type} :
    ∀ (l : List α) (j : Nat) (v : α), j < l.length →
      (l.set j v).take (j + 1) = l.take j ++ [v] := by
  intro l
  induction l with
  | nil => intro j v h; simp at h
  | cons a t ih =>
    intro j v h
    cases j with
    | zero => simp
    | succ j =>
      simp only [List.set_cons_succ, List.take_succ_cons, List.cons_append]
      rw [ih j v (by simpa using h)]

theorem range'_map_getD {α : Type} (dflt : α) :
    ∀ (n k : Nat) (l : List α), k + n ≤ l.length →
      (List.range' k n).map (fun p => l.getD p dflt) = (l.drop k).take n := by
  intro n
  induction n with
  | zero => intro k l _; simp
  | succ n ih =>
    intro k l h
    rw [List.range'_succ]
    simp only [List.map_cons]
    rw [ih (k + 1) l (by omega)]
    have hk : k < l.length := by omega
    rw [List.drop_eq_getElem_cons hk]
    simp only [List.take_succ_cons]
    congr 1
    rw [List.getD_eq_getElem?_getD, List.getElem?_eq_getElem hk]
    rfl

theorem range'_map_getD_drop {α : Type} (dflt : α) (k : Nat) (l : List α)
    (h : k ≤ l.length) :
    (List.range' k (l.length - k)).map (fun p => l.getD p dflt) = l.drop k := by
  rw [range'_map_getD dflt (l.length - k) k l (by omega)]
  exact List.take_of_length_le (by simp)

theorem strictMono_length_le :
    ∀ l : List Int, l.Pairwise (· < ·) →
      ∀ lo hi : Int, lo ≤ hi → (∀ y ∈ l, lo ≤ y ∧ y < hi) →
        (l.length : Int) ≤ hi - lo := by
  intro l
  induction l with
  | nil => intro _ lo hi hle _; simp; omega
  | cons x rest ih =>
    intro hp lo hi hle hb
    obtain ⟨hx1, hrest⟩ := List.pairwise_cons.mp hp
    have hx := hb x (by simp)
    have hrec := ih hrest (x + 1) hi (by omega)
      (fun y hy => ⟨by have := hx1 y hy; omega, (hb y (by simp [hy])).2⟩)
    simp only [List.length_cons]
    push_cast at hrec ⊢
    omega

theorem lpruneLoop_add_some (keep : List Int) :
    ∀ a b i j ws tbl ws1 tbl1 j1,
      lpruneLoop keep a i j ws tbl = some (ws1, tbl1, j1) →
      lpruneLoop keep (a + b) i j ws tbl = lpruneLoop keep b (i + a) j1 ws1 tbl1 := by
  intro a
  induction a with
  | zero =>
    intro b i j ws tbl ws1 tbl1 j1 h
    cases h
    simp
  | succ a ih =>
    intro b i j ws tbl ws1 tbl1 j1 h
    have hsum : a + 1 + b = (a + b) + 1 := by omega
    rw [hsum]
    rw [lpruneLoop] at h ⊢
    rw [show i + (a + 1) = i + 1 + a from by omega]
    split at h
    · next hc =>
      rw [if_pos hc]
      split at h
      · cases h
      · next slot hfind =>
        exact ih b (i + 1) (j + 1) _ _ ws1 tbl1 j1 h
    · next hc =>
      rw [if_neg hc]
      exact ih b (i + 1) j ws tbl ws1 tbl1 j1 h

theorem lentryAt_set_ne (ws : List lentry) (j p : Nat) (v : lentry) (h : j ≠ p) :
    lentryAt (ws.set j v) p = lentryAt ws p :=
  getD_set_ne _ ws j p v h

theorem lpruneLoop_words (keep : List Int) :
    ∀ cnt i j ws tbl,
      ws.length < MAX_VOCAB_SIZE →
      i + cnt ≤ ws.length →
      j ≤ i →
      tbl.length ≤ j →
      (keep.drop j).Pairwise (· < ·) →
      (∀ p, i ≤ p → p < i + cnt → (lentryAt ws p).type = EType.word) →
      (∀ x ∈ keep.drop j, (i : Int) ≤ x ∧ x < (i : Int) + cnt) →
      ∃ ws1 tbl1,
        lpruneLoop keep cnt i j ws tbl = some (ws1, tbl1, j + (keep.drop j).length) ∧
        ws1.length = ws.length ∧
        ws1.drop (i + cnt) = ws.drop (i + cnt) ∧
        ws1.take (j + (keep.drop j).length) =
          ws.take j ++ (keep.drop j).map (fun x => lentryAt ws x.toNat) ∧
        tbl1.length ≤ j + (keep.drop j).length := by
  intro cnt
  induction cnt with
  | zero =>
    intro i j ws tbl hcap hle hj htbl hpw htypes hbound
    have hnil : keep.drop j = [] := by
      rcases hd : keep.drop j with _ | ⟨x, rest⟩
      · rfl
      · exfalso
        have hx := hbound x (by rw [hd]; simp)
        omega
    rw [hnil]
    exact ⟨ws, tbl, by simp [lpruneLoop], rfl, rfl, by simp, by simpa using htbl⟩
  | succ cnt ih =>
    intro i j ws tbl hcap hle hj htbl hpw htypes hbound
    have htyi : (lentryAt ws i).type = EType.word := htypes i le_rfl (by omega)
    rcases hd : keep.drop j with _ | ⟨x, rest⟩
    · have hcond : ¬ ((lentryAt ws i).type = EType.label ∨
          (j < keep.length ∧ keep.getD j 0 = (i : Int))) := by
        rintro (h1 | ⟨h2, _⟩)
        · rw [htyi] at h1; cases h1
        · have hle' : keep.length ≤ j := by
            by_contra hlt
            have : keep.drop j ≠ [] := by
              intro hx
              have := congrArg List.length hx
              simp [List.length_drop] at this
              omega
            exact this hd
          omega
      rw [lpruneLoop, if_neg hcond]
      obtain ⟨ws1, tbl1, hloop, hlen1, hdrop1, htake1, htbl1⟩ :=
        ih (i + 1) j ws tbl hcap (by omega) (by omega) htbl hpw
          (fun p hp1 hp2 => htypes p (by omega) (by omega))
          (fun y hy => by rw [hd] at hy; simp at hy)
      rw [hd] at hloop htake1 htbl1
      refine ⟨ws1, tbl1, hloop, hlen1, ?_, htake1, htbl1⟩
      rw [show i + (cnt + 1) = i + 1 + cnt from by omega]
      exact hdrop1
    · have hjlt : j < keep.length := by
        by_contra hge
        have h0 : keep.drop j = [] := by
          rw [List.drop_eq_nil_iff]
          omega
        rw [h0] at hd
        cases hd
      have hgetD : keep.getD j 0 = x := by
        rw [getD_drop' 0 j keep j le_rfl, hd]
        simp
      have hpwc : (x :: rest).Pairwise (· < · : Int → Int → Prop) := hd ▸ hpw
      obtain ⟨hxlt, hpwrest⟩ := List.pairwise_cons.mp hpwc
      have hxbound := hbound x (by rw [hd]; simp)
      by_cases hxi : x = (i : Int)
      · have hcond : (lentryAt ws i).type = EType.label ∨
            (j < keep.length ∧ keep.getD j 0 = (i : Int)) :=
          Or.inr ⟨hjlt, by rw [hgetD, hxi]⟩
        rw [lpruneLoop, if_pos hcond]
        obtain ⟨slot, hslot⟩ := lfind_isSome_of_small tbl
          (ws.set j (lentryAt ws i)) (lentryAt ws i).word (by omega)
        rw [hslot]
        have hdropj1 : keep.drop (j + 1) = rest := by
          have h1 : keep.drop (j + 1) = (keep.drop j).drop 1 := by
            rw [List.drop_drop]
          rw [h1, hd]
          rfl
        obtain ⟨ws2, tbl2, hloop, hlen2, hdrop2, htake2, htbl2⟩ :=
          ih (i + 1) (j + 1) (ws.set j (lentryAt ws i)) (tableSet tbl slot j)
            (by simpa using hcap)
            (by simp only [List.length_set]; omega)
            (by omega)
            (by have := tableSet_length_le tbl slot j; omega)
            (by rw [hdropj1]; exact hpwrest)
            (fun p hp1 hp2 => by
              rw [lentryAt_set_ne ws j p _ (by omega)]
              exact htypes p (by omega) (by omega))
            (fun y hy => by
              rw [hdropj1] at hy
              have h1 := hbound y (by rw [hd]; simp [hy])
              have h2 := hxlt y hy
              constructor
              · push_cast
                omega
              · push_cast at h1 ⊢
                omega)
        rw [hdropj1] at hloop htake2 htbl2
        refine ⟨ws2, tbl2, ?_, ?_, ?_, ?_, ?_⟩
        · show lpruneLoop keep cnt (i + 1) (j + 1) (ws.set j (lentryAt ws i))
              (tableSet tbl slot j) = some (ws2, tbl2, j + (x :: rest).length)
          rw [hloop]
          have harith : j + 1 + rest.length = j + (x :: rest).length := by
            simp only [List.length_cons]
            omega
          rw [harith]
        · rw [hlen2]
          simp
        · rw [show i + (cnt + 1) = i + 1 + cnt from by omega, hdrop2]
          exact List.drop_set_of_lt _ ws (by omega)
        · rw [show j + (x :: rest).length = j + 1 + rest.length from by
            simp only [List.length_cons]; omega]
          rw [htake2]
          rw [take_set_succ ws j _ (by omega)]
          simp only [List.map_cons, List.append_assoc, List.singleton_append]
          congr 1
          congr 1
          · rw [hxi]
            simp [Int.toNat_natCast]
          · refine List.map_congr_left ?_
            intro y hy
            have h2 := hxlt y hy
            refine lentryAt_set_ne ws j y.toNat _ ?_
            have : (i : Int) < y := by omega
            omega
        · simp only [List.length_cons]
          omega
      · have hxgt : (i : Int) < x := lt_of_le_of_ne hxbound.1 (Ne.symm hxi)
        have hcond : ¬ ((lentryAt ws i).type = EType.label ∨
            (j < keep.length ∧ keep.getD j 0 = (i : Int))) := by
          rintro (h1 | ⟨_, h3⟩)
          · rw [htyi] at h1; cases h1
          · rw [hgetD] at h3
            exact hxi h3
        rw [lpruneLoop, if_neg hcond]
        obtain ⟨ws1, tbl1, hloop, hlen1, hdrop1, htake1, htbl1⟩ :=
          ih (i + 1) j ws tbl hcap (by omega) (by omega) htbl hpw
            (fun p hp1 hp2 => htypes p (by omega) (by omega))
            (fun y hy => by
              rw [hd] at hy
              rcases List.mem_cons.mp hy with rfl | hy'
              · constructor
                · push_cast
                  omega
                · push_cast at hxbound ⊢
                  omega
              · have h1 := hbound y (by rw [hd]; simp [hy'])
                have h2 := hxlt y hy'
                constructor
                · push_cast
                  omega
                · push_cast at h1 ⊢
                  omega)
        rw [hd] at hloop htake1 htbl1
        refine ⟨ws1, tbl1, hloop, hlen1, ?_, htake1, htbl1⟩
        rw [show i + (cnt + 1) = i + 1 + cnt from by omega]
        exact hdrop1

theorem lpruneLoop_labels (keep : List Int) :
    ∀ cnt i j ws tbl,
      ws.length < MAX_VOCAB_SIZE →
      i + cnt ≤ ws.length →
      j ≤ i →
      tbl.length ≤ j →
      (∀ p, i ≤ p → p < i + cnt → (lentryAt ws p).type = EType.label) →
      ∃ ws1 tbl1,
        lpruneLoop keep cnt i j ws tbl = some (ws1, tbl1, j + cnt) ∧
        ws1.length = ws.length ∧
        ws1.take (j + cnt) =
          ws.take j ++ (List.range' i cnt).map (fun p => lentryAt ws p) ∧
        tbl1.length ≤ j + cnt := by
  intro cnt
  induction cnt with
  | zero =>
    intro i j ws tbl hcap hle hj htbl htypes
    exact ⟨ws, tbl, by simp [lpruneLoop], rfl, by simp, by simpa using htbl⟩
  | succ cnt ih =>
    intro i j ws tbl hcap hle hj htbl htypes
    have htyi : (lentryAt ws i).type = EType.label := htypes i le_rfl (by omega)
    have hcond : (lentryAt ws i).type = EType.label ∨
        (j < keep.length ∧ keep.getD j 0 = (i : Int)) := Or.inl htyi
    rw [lpruneLoop, if_pos hcond]
    obtain ⟨slot, hslot⟩ := lfind_isSome_of_small tbl
      (ws.set j (lentryAt ws i)) (lentryAt ws i).word (by omega)
    rw [hslot]
    obtain ⟨ws2, tbl2, hloop, hlen2, htake2, htbl2⟩ :=
      ih (i + 1) (j + 1) (ws.set j (lentryAt ws i)) (tableSet tbl slot j)
        (by simpa using hcap)
        (by simp only [List.length_set]; omega)
        (by omega)
        (by have := tableSet_length_le tbl slot j; omega)
        (fun p hp1 hp2 => by
          rw [lentryAt_set_ne ws j p _ (by omega)]
          exact htypes p (by omega) (by omega))
    refine ⟨ws2, tbl2, ?_, ?_, ?_, ?_⟩
    · show lpruneLoop keep cnt (i + 1) (j + 1) (ws.set j (lentryAt ws i))
          (tableSet tbl slot j) = some (ws2, tbl2, j + (cnt + 1))
      rw [hloop]
      have harith : j + 1 + cnt = j + (cnt + 1) := by omega
      rw [harith]
    · rw [hlen2]
      simp
    · rw [show j + (cnt + 1) = j + 1 + cnt from by omega]
      rw [htake2]
      rw [take_set_succ ws j _ (by omega)]
      rw [List.range'_succ]
      simp only [List.map_cons, List.append_assoc, List.singleton_append]
      congr 2
      refine List.map_congr_left ?_
      intro p hp
      have hpmem := List.mem_range'_1.mp hp
      exact lentryAt_set_ne ws j p _ (by omega)
    · omega

theorem entryAt_set_ne (ws : List entry) (j p : Nat) (v : entry) (h : j ≠ p) :
    entryAt (ws.set j v) p = entryAt ws p :=
  getD_set_ne _ ws j p v h

theorem pruneLoop_words (keep : List Int) :
    ∀ (cnt i j : Nat) (ws : List entry) (tbl : Table),
      ws.length < MAX_VOCAB_SIZE →
      i + cnt ≤ ws.length →
      j ≤ i →
      tbl.length ≤ j →
      (keep.drop j).Pairwise (· < ·) →
      (∀ x ∈ keep.drop j, (i : Int) ≤ x ∧ x < (i : Int) + cnt) →
      ∃ ws1 tbl1,
        pruneLoop keep cnt i j ws tbl = some (ws1, tbl1, j + (keep.drop j).length) ∧
        ws1.length = ws.length ∧
        ws1.drop (i + cnt) = ws.drop (i + cnt) ∧
        ws1.take (j + (keep.drop j).length) =
          ws.take j ++ (keep.drop j).map (fun x => entryAt ws x.toNat) ∧
        tbl1.length ≤ j + (keep.drop j).length := by
  intro cnt
  induction cnt with
  | zero =>
    intro i j ws tbl hcap hle hj htbl hpw hbound
    have hnil : keep.drop j = [] := by
      rcases hd : keep.drop j with _ | ⟨x, rest⟩
      · rfl
      · exfalso
        have hx := hbound x (by rw [hd]; simp)
        omega
    rw [hnil]
    exact ⟨ws, tbl, by simp [pruneLoop], rfl, rfl, by simp, by simpa using htbl⟩
  | succ cnt ih =>
    intro i j ws tbl hcap hle hj htbl hpw hbound
    rcases hd : keep.drop j with _ | ⟨x, rest⟩
    · have hcond : ¬ (j < keep.length ∧ keep.getD j 0 = (i : Int)) := by
        rintro ⟨h2, _⟩
        have hle' : keep.length ≤ j := by
          by_contra hlt
          have : keep.drop j ≠ [] := by
            intro hx
            have := congrArg List.length hx
            simp [List.length_drop] at this
            omega
          exact this hd
        omega
      rw [pruneLoop, if_neg hcond]
      obtain ⟨ws1, tbl1, hloop, hlen1, hdrop1, htake1, htbl1⟩ :=
        ih (i + 1) j ws tbl hcap (by omega) (by omega) htbl hpw
          (fun y hy => by rw [hd] at hy; simp at hy)
      rw [hd] at hloop htake1 htbl1
      refine ⟨ws1, tbl1, hloop, hlen1, ?_, htake1, htbl1⟩
      rw [show i + (cnt + 1) = i + 1 + cnt from by omega]
      exact hdrop1
    · have hjlt : j < keep.length := by
        by_contra hge
        have h0 : keep.drop j = [] := by
          rw [List.drop_eq_nil_iff]
          omega
        rw [h0] at hd
        cases hd
      have hgetD : keep.getD j 0 = x := by
        rw [getD_drop' 0 j keep j le_rfl, hd]
        simp
      have hpwc : (x :: rest).Pairwise (· < · : Int → Int → Prop) := hd ▸ hpw
      obtain ⟨hxlt, hpwrest⟩ := List.pairwise_cons.mp hpwc
      have hxbound := hbound x (by rw [hd]; simp)
      by_cases hxi : x = (i : Int)
      · have hcond : j < keep.length ∧ keep.getD j 0 = (i : Int) :=
          ⟨hjlt, by rw [hgetD, hxi]⟩
        rw [pruneLoop, if_pos hcond]
        obtain ⟨slot, hslot⟩ := find_isSome_of_small tbl
          (ws.set j (entryAt ws i)) (entryAt ws i).word (by omega)
        rw [hslot]
        have hdropj1 : keep.drop (j + 1) = rest := by
          have h1 : keep.drop (j + 1) = (keep.drop j).drop 1 := by
            rw [List.drop_drop]
          rw [h1, hd]
          rfl
        obtain ⟨ws2, tbl2, hloop, hlen2, hdrop2, htake2, htbl2⟩ :=
          ih (i + 1) (j + 1) (ws.set j (entryAt ws i)) (tableSet tbl slot j)
            (by simpa using hcap)
            (by simp only [List.length_set]; omega)
            (by omega)
            (by have := tableSet_length_le tbl slot j; omega)
            (by rw [hdropj1]; exact hpwrest)
            (fun y hy => by
              rw [hdropj1] at hy
              have h1 := hbound y (by rw [hd]; simp [hy])
              have h2 := hxlt y hy
              constructor
              · push_cast
                omega
              · push_cast at h1 ⊢
                omega)
        rw [hdropj1] at hloop htake2 htbl2
        refine ⟨ws2, tbl2, ?_, ?_, ?_, ?_, ?_⟩
        · show pruneLoop keep cnt (i + 1) (j + 1) (ws.set j (entryAt ws i))
              (tableSet tbl slot j) = some (ws2, tbl2, j + (x :: rest).length)
          rw [hloop]
          have harith : j + 1 + rest.length = j + (x :: rest).length := by
            simp only [List.length_cons]
            omega
          rw [harith]
        · rw [hlen2]
          simp
        · rw [show i + (cnt + 1) = i + 1 + cnt from by omega, hdrop2]
          exact List.drop_set_of_lt _ ws (by omega)
        · rw [show j + (x :: rest).length = j + 1 + rest.length from by
            simp only [List.length_cons]; omega]
          rw [htake2]
          rw [take_set_succ ws j _ (by omega)]
          simp only [List.map_cons, List.append_assoc, List.singleton_append]
          congr 1
          congr 1
          · rw [hxi]
            simp [Int.toNat_natCast]
          · refine List.map_congr_left ?_
            intro y hy
            have h2 := hxlt y hy
            refine entryAt_set_ne ws j y.toNat _ ?_
            have : (i : Int) < y := by omega
            omega
        · simp only [List.length_cons]
          omega
      · have hxgt : (i : Int) < x := lt_of_le_of_ne hxbound.1 (Ne.symm hxi)
        have hcond : ¬ (j < keep.length ∧ keep.getD j 0 = (i : Int)) := by
          rintro ⟨_, h3⟩
          rw [hgetD] at h3
          exact hxi h3
        rw [pruneLoop, if_neg hcond]
        obtain ⟨ws1, tbl1, hloop, hlen1, hdrop1, htake1, htbl1⟩ :=
          ih (i + 1) j ws tbl hcap (by omega) (by omega) htbl hpw
            (fun y hy => by
              rw [hd] at hy
              rcases List.mem_cons.mp hy with rfl | hy'
              · constructor
                · push_cast
                  omega
                · push_cast at hxbound ⊢
                  omega
              · have h1 := hbound y (by rw [hd]; simp [hy'])
                have h2 := hxlt y hy'
                constructor
                · push_cast
                  omega
                · push_cast at h1 ⊢
                  omega)
        rw [hd] at hloop htake1 htbl1
        refine ⟨ws1, tbl1, hloop, hlen1, ?_, htake1, htbl1⟩
        rw [show i + (cnt + 1) = i + 1 + cnt from by omega]
        exact hdrop1

/-- C2 counterexample.  On the sample label-aware vocabulary (1 word, 1
label) and the id list `[-1]`, the sorted intersection of the list with
`[0, nwords_)` is empty, so the claim requires `nwords_ = 0` after the
prune; but the source's filter `*it < nwords_` lets the negative id
through, the compaction keeps nothing, and `nwords_` becomes 1. -/
theorem c2_prune_negative_id_not_ignored :
    (lprune dLbl [-1]).map (fun p => p.1.nwords) = some 1 ∧ (1 : Nat) ≠ 0 := by
  exact ⟨by decide, by decide⟩

/-- C2 (amended).  In both variants, for every well-formed dictionary
state (store below table capacity; in the label-aware variant `size_`
matches the store and words precede labels) and every id list whose
entries are pairwise distinct and nonnegative, `prune(ids)` succeeds and
realizes the intersection semantics: ids `≥ nwords_` are dropped by the
filter and contribute nothing; the kept word entries are exactly those
whose pre-prune id is in the sorted intersection of the list with
`[0, nwords_)` (in sorted order), followed by all label entries in the
label-aware variant; and the post-prune `nwords_` equals the size of that
intersection — whereas ids that are negative or duplicated are not
ignored by the code and fall outside this contract. -/
theorem c2_prune_kept_set :
    (∀ (d : Dict) (idx : List Int),
      d.words.length < MAX_VOCAB_SIZE →
      d.nwords ≤ d.words.length →
      idx.Nodup →
      (∀ x ∈ idx, 0 ≤ x) →
      ∃ d1 keep, prune d idx = some (d1, keep) ∧
        keep.Perm (idx.filter (fun x => decide (x < (d.nwords : Int)))) ∧
        keep.Pairwise (· < ·) ∧
        d1.nwords = keep.length ∧
        d1.words.length = d.words.length ∧
        d1.words.take keep.length = keep.map (fun x => entryAt d.words x.toNat)) ∧
    (∀ (d : LDict) (idx : List Int),
      d.size = d.words.length →
      d.nwords + d.nlabels = d.size →
      d.words.length < MAX_VOCAB_SIZE →
      (∀ p, p < d.words.length →
        ((lentryAt d.words p).type = EType.word ↔ p < d.nwords)) →
      idx.Nodup →
      (∀ x ∈ idx, 0 ≤ x) →
      ∃ d1 keep, lprune d idx = some (d1, keep) ∧
        keep.Perm (idx.filter (fun x => decide (x < (d.nwords : Int)))) ∧
        keep.Pairwise (· < ·) ∧
        d1.nwords = keep.length ∧
        d1.size = keep.length + d.nlabels ∧
        d1.words.take d1.size =
          keep.map (fun x => lentryAt d.words x.toNat) ++ d.words.drop d.nwords) := by
  constructor
  · intro d idx hcap hnw hnodup hpos
    have hnodupf : (idx.filter (fun x => decide (x < (d.nwords : Int)))).Nodup :=
      List.Nodup.filter _ hnodup
    have hvalidf : ∀ x ∈ idx.filter (fun x => decide (x < (d.nwords : Int))),
        0 ≤ x ∧ x < (d.nwords : Int) := by
      intro x hx
      rcases List.mem_filter.mp hx with ⟨hmem, hcond⟩
      exact ⟨hpos x hmem, by simpa using hcond⟩
    have hperm : (sortIds (idx.filter (fun x => decide (x < (d.nwords : Int))))).Perm
        (idx.filter (fun x => decide (x < (d.nwords : Int)))) :=
      List.perm_insertionSort _ _
    have hsortle : (sortIds (idx.filter (fun x => decide (x < (d.nwords : Int))))).Pairwise
        (· ≤ · : Int → Int → Prop) :=
      List.sorted_insertionSort _ _
    have hnodup' : (sortIds (idx.filter (fun x => decide (x < (d.nwords : Int))))).Nodup :=
      (hperm.nodup_iff).mpr hnodupf
    have hstrict : (sortIds (idx.filter (fun x => decide (x < (d.nwords : Int))))).Pairwise
        (· < · : Int → Int → Prop) :=
      (hsortle.and hnodup').imp (fun h => lt_of_le_of_ne h.1 h.2)
    have hkvalid : ∀ x ∈ sortIds (idx.filter (fun x => decide (x < (d.nwords : Int)))),
        0 ≤ x ∧ x < (d.nwords : Int) :=
      fun x hx => hvalidf x (hperm.mem_iff.mp hx)
    obtain ⟨ws1, tbl1, hloop1, hlen1, hdrop1, htake1, htbl1⟩ :=
      pruneLoop_words (sortIds (idx.filter (fun x => decide (x < (d.nwords : Int)))))
        d.words.length 0 0 d.words tableEmpty hcap
        (by omega) (le_refl 0) (by simp [tableEmpty])
        (by simpa using hstrict)
        (fun x hx => by
          have := hkvalid x (by simpa using hx)
          constructor
          · omega
          · push_cast
            omega)
    simp only [List.drop_zero, Nat.zero_add, List.take_zero, List.nil_append]
      at hloop1 htake1 htbl1 hdrop1
    refine ⟨{ d with words := ws1, word2int := tbl1, pruneidxSize := (d.pruneidx.length : Int), nwords := (sortIds (idx.filter (fun x => decide (x < (d.nwords : Int))))).length }, sortIds (idx.filter (fun x => decide (x < (d.nwords : Int)))), ?_, hperm, hstrict, rfl, hlen1, htake1⟩
    simp only [prune]
    rw [hloop1]
  · intro d idx hsize hsum hcap htypes hnodup hpos
    have hnodupf : (idx.filter (fun x => decide (x < (d.nwords : Int)))).Nodup :=
      List.Nodup.filter _ hnodup
    have hvalidf : ∀ x ∈ idx.filter (fun x => decide (x < (d.nwords : Int))),
        0 ≤ x ∧ x < (d.nwords : Int) := by
      intro x hx
      rcases List.mem_filter.mp hx with ⟨hmem, hcond⟩
      exact ⟨hpos x hmem, by simpa using hcond⟩
    have hperm : (sortIds (idx.filter (fun x => decide (x < (d.nwords : Int))))).Perm
        (idx.filter (fun x => decide (x < (d.nwords : Int)))) :=
      List.perm_insertionSort _ _
    have hsortle : (sortIds (idx.filter (fun x => decide (x < (d.nwords : Int))))).Pairwise
        (· ≤ · : Int → Int → Prop) :=
      List.sorted_insertionSort _ _
    have hnodup' : (sortIds (idx.filter (fun x => decide (x < (d.nwords : Int))))).Nodup :=
      (hperm.nodup_iff).mpr hnodupf
    have hstrict : (sortIds (idx.filter (fun x => decide (x < (d.nwords : Int))))).Pairwise
        (· < · : Int → Int → Prop) :=
      (hsortle.and hnodup').imp (fun h => lt_of_le_of_ne h.1 h.2)
    have hkvalid : ∀ x ∈ sortIds (idx.filter (fun x => decide (x < (d.nwords : Int)))),
        0 ≤ x ∧ x < (d.nwords : Int) :=
      fun x hx => hvalidf x (hperm.mem_iff.mp hx)
    have hkle : (sortIds (idx.filter (fun x => decide (x < (d.nwords : Int))))).length
        ≤ d.nwords := by
      have h1 := strictMono_length_le
        (sortIds (idx.filter (fun x => decide (x < (d.nwords : Int))))) hstrict
        0 (d.nwords : Int)
        (by exact_mod_cast Nat.zero_le _)
        (fun y hy => by have := hkvalid y hy; omega)
      omega
    have hnwle : d.nwords ≤ d.words.length := by omega
    obtain ⟨ws1, tbl1, hloop1, hlen1, hdrop1, htake1, htbl1⟩ :=
      lpruneLoop_words (sortIds (idx.filter (fun x => decide (x < (d.nwords : Int)))))
        d.nwords 0 0 d.words tableEmpty hcap
        (by omega) (le_refl 0) (by simp [tableEmpty])
        (by simpa using hstrict)
        (fun p hp1 hp2 => (htypes p (by omega)).mpr (by omega))
        (fun x hx => by
          have := hkvalid x (by simpa using hx)
          constructor
          · omega
          · push_cast
            omega)
    simp only [List.drop_zero, Nat.zero_add, List.take_zero, List.nil_append]
      at hloop1 htake1 htbl1 hdrop1
    have htypes1 : ∀ p, d.nwords ≤ p →
        p < d.nwords + (d.words.length - d.nwords) →
        (lentryAt ws1 p).type = EType.label := by
      intro p hp1 hp2
      have he : lentryAt ws1 p = lentryAt d.words p :=
        getD_eq_of_drop_eq _ ws1 d.words d.nwords p hdrop1 hp1
      rw [he]
      have hiff := htypes p (by omega)
      rcases hty : (lentryAt d.words p).type with _ | _
      · exact absurd (hiff.mp hty) (by omega)
      · rfl
    obtain ⟨ws2, tbl2, hloop2, hlen2, htake2, htbl2⟩ :=
      lpruneLoop_labels (sortIds (idx.filter (fun x => decide (x < (d.nwords : Int)))))
        (d.words.length - d.nwords) d.nwords
        ((sortIds (idx.filter (fun x => decide (x < (d.nwords : Int))))).length) ws1 tbl1
        (by rw [hlen1]; exact hcap)
        (by rw [hlen1]; omega)
        hkle
        htbl1
        htypes1
    have hcomb := lpruneLoop_add_some
      (sortIds (idx.filter (fun x => decide (x < (d.nwords : Int))))) d.nwords
      (d.words.length - d.nwords) 0 0 d.words tableEmpty ws1 tbl1
      ((sortIds (idx.filter (fun x => decide (x < (d.nwords : Int))))).length) hloop1
    rw [show (0 : Nat) + d.nwords = d.nwords from by omega] at hcomb
    rw [hloop2] at hcomb
    have hfuel : d.nwords + (d.words.length - d.nwords) = d.words.length := by omega
    rw [hfuel] at hcomb
    have hnl : d.words.length - d.nwords = d.nlabels := by omega
    refine ⟨{ d with words := ws2, word2int := tbl2, pruneidxSize := (d.pruneidx.length : Int), nwords := (sortIds (idx.filter (fun x => decide (x < (d.nwords : Int))))).length, size := (sortIds (idx.filter (fun x => decide (x < (d.nwords : Int))))).length + d.nlabels }, sortIds (idx.filter (fun x => decide (x < (d.nwords : Int)))), ?_, hperm, hstrict, rfl, rfl, ?_⟩
    · simp only [lprune]
      rw [hcomb]
    · show ws2.take
        ((sortIds (idx.filter (fun x => decide (x < (d.nwords : Int))))).length
          + d.nlabels) = _
      rw [← hnl, htake2, htake1]
      congr 1
      have hcongr : ∀ p ∈ List.range' d.nwords (d.words.length - d.nwords),
          lentryAt ws1 p = lentryAt d.words p := by
        intro p hp
        have hpmem := List.mem_range'_1.mp hp
        exact getD_eq_of_drop_eq _ ws1 d.words d.nwords p hdrop1 hpmem.1
      rw [List.map_congr_left hcongr]
      exact range'_map_getD_drop _ d.nwords d.words hnwle

/-- Concrete instance of the prune contract: in the words-only variant,
pruning the sample vocabulary (words `a`, `b`) with the id list `[1, 5]`
drops the out-of-range id `5` and keeps only word `b` at id 0; in the
label-aware variant, pruning the sample vocabulary (1 word `a`, 1 label
`__l`) down to the id list `[0]` keeps the word and the label, with
`nwords_ = 1`. -/
theorem c2_prune_kept_set_witness :
    (∃ d1 keep, prune dSample [1, 5] = some (d1, keep) ∧
      keep.Perm ([1, 5].filter (fun x => decide (x < (dSample.nwords : Int)))) ∧
      keep.Pairwise (· < ·) ∧
      d1.nwords = keep.length ∧
      d1.words.length = dSample.words.length ∧
      d1.words.take keep.length = keep.map (fun x => entryAt dSample.words x.toNat)) ∧
    (∃ d1 keep, lprune dLbl [0] = some (d1, keep) ∧
      keep.Perm ([0].filter (fun x => decide (x < (dLbl.nwords : Int)))) ∧
      keep.Pairwise (· < ·) ∧
      d1.nwords = keep.length ∧
      d1.size = keep.length + dLbl.nlabels ∧
      d1.words.take d1.size =
        keep.map (fun x => lentryAt dLbl.words x.toNat) ++ dLbl.words.drop dLbl.nwords) := by
  exact ⟨c2_prune_kept_set.1 dSample [1, 5] (by decide) (by decide) (by decide) (by decide),
    c2_prune_kept_set.2 dLbl [0] (by decide) (by decide) (by decide) (by decide)
      (by decide) (by decide)⟩

end FT
